import Mathlib

/-!
Verification of the rule based PCG generators (cellular automata smoothing
pass and drunk agent walker) against their specification.

The source program is a single C++ file.  Its two core functions,
cellularAutomata and drunkAgent, are embedded shallowly below:

* the map type vector of vector of int becomes a list of lists of integers;
* machine doubles that only ever hold probabilities and ratios are embedded
  as exact rationals;
* the two bitwise tricks of the cellular automata pass, reading v and 1 and
  storing the next state in bit one of the same array, are embedded through
  the arithmetic renderings of the two complement operations, documented on
  each helper;
* the random source is embedded as an explicit pair of draw streams, one for
  the uniform real draws and one for the uniform direction draws, indexed by
  how many draws of that kind have been consumed.
-/

namespace RuleBasedPCG

/-- The map type of the source: a vector of rows of machine integers. -/
abbrev Map := List (List ℤ)

/-- Read cell (i, j); out of range reads default to 0 (never exercised by the
embedded code, whose reads are all bounds guarded or loop bounded). -/
def getCell (m : Map) (i j : ℕ) : ℤ := (m.getD i []).getD j 0

/-- Write cell (i, j); out of range writes are dropped (never exercised by the
embedded code, whose writes are all bounds guarded or loop bounded). -/
def setCell (m : Map) (i j : ℕ) (v : ℤ) : Map :=
  m.set i ((m.getD i []).set j v)

/-- The grid has exactly H rows of exactly W cells each. -/
abbrev dimsOk (H W : ℕ) (m : Map) : Prop :=
  m.length = H ∧ ∀ row ∈ m, row.length = W

/-- The integers from a to b inclusive, in order: the index sequence of the
C style loop for (x = a; x <= b; ++x). -/
def intRange (a b : ℤ) : List ℤ :=
  (List.range (b + 1 - a).toNat).map (fun (k : ℕ) => a + (k : ℤ))

/-- C++ v & 1 on a two complement machine integer: the low bit of v,
which is v mod 2 with a nonnegative remainder. -/
def land1 (v : ℤ) : ℤ := v.emod 2

/-- C++ v | (w << 1) for w in {0, 1} on a two complement machine integer:
returns v with bit one set when w = 1 (bit one of v is clear exactly when
v mod 4 is less than 2). -/
def lorShl1 (v w : ℤ) : ℤ :=
  if w = 0 then v else if v.emod 4 < 2 then v + 2 else v

/-- C++ (v >> 1) & 1 on a two complement machine integer (arithmetic right
shift, which is floor division by 2): bit one of v. -/
def shr1land1 (v : ℤ) : ℤ := (v.ediv 2).emod 2

/-- The neighbor count of the cellular automata pass at cell (i, j), read
from m: window coordinates inside the grid contribute their low bit, window
coordinates outside the grid count as occupied. -/
def caCount (m : Map) (W H R : ℤ) (i j : ℕ) : ℤ :=
  (intRange (-R) R).foldl (fun acc dx =>
    (intRange (-R) R).foldl (fun acc2 dy =>
      let ni : ℤ := (i : ℤ) + dx
      let nj : ℤ := (j : ℤ) + dy
      if 0 ≤ ni ∧ ni < H ∧ 0 ≤ nj ∧ nj < W then
        acc2 + land1 (getCell m ni.toNat nj.toNat)
      else
        acc2 + 1) acc) 0

/-- The new cell value of the cellular automata rule: occupied exactly when
count / total is at least the threshold U, with total = (2R+1) * (2R+1). -/
def caNewVal (m : Map) (W H R : ℤ) (U : ℚ) (i j : ℕ) : ℤ :=
  if U ≤ mkRat (caCount m W H R i j) ((2 * R + 1) * (2 * R + 1)).toNat then 1 else 0

/-- Row major list of the cell coordinates visited by the nested loops
for (i = 0; i < H; ++i) for (j = 0; j < W; ++j). -/
def positions (H W : ℕ) : List (ℕ × ℕ) :=
  (List.range H).flatMap (fun i => (List.range W).map (fun j => (i, j)))

/-- One cell update of the first pass: compute the new value from the array
as it currently stands and store it in bit one, leaving bit zero intact. -/
def caMark (W H R : ℤ) (U : ℚ) (m : Map) (p : ℕ × ℕ) : Map :=
  setCell m p.1 p.2 (lorShl1 (getCell m p.1 p.2) (caNewVal m W H R U p.1 p.2))

/-- First pass of cellularAutomata: sequentially, in row major order, store
each new cell state in bit one of the same array. -/
def caPass1 (W H R : ℤ) (U : ℚ) (m : Map) : Map :=
  (positions H.toNat W.toNat).foldl (caMark W H R U) m

/-- Second pass of cellularAutomata: replace every cell by bit one of its
stored value. -/
def caPass2 (W H : ℤ) (m : Map) : Map :=
  (positions H.toNat W.toNat).foldl
    (fun acc p => setCell acc p.1 p.2 (shr1land1 (getCell acc p.1 p.2))) m

/-- The cellularAutomata function of the source: one synchronous smoothing
pass implemented with the bit packed single array double buffer. -/
def cellularAutomata (currentMap : Map) (W H R : ℤ) (U : ℚ) : Map :=
  caPass2 W H (caPass1 W H R U currentMap)

/-- The random source of drunkAgent, embedded as explicit draw streams: the
n-th uniform real draw from the interval [0, 1) and the n-th uniform draw
among the four direction indices. -/
structure RNG where
  chance : ℕ → ℚ
  dir : ℕ → Fin 4

/-- The local state of one drunkAgent call: the map under construction, the
agent position, the current heading, the two adaptive probabilities, and the
counts of random draws consumed from each stream. -/
structure DAState where
  map : Map
  agentX : ℤ
  agentY : ℤ
  dx : ℤ
  dy : ℤ
  probGenerateRoom : ℚ
  probChangeDirection : ℚ
  ci : ℕ
  di : ℕ

/-- Horizontal component of direction index d, mirroring the conditional
chain dx = (dir == 0) ? -1 : (dir == 1) ? 1 : 0. -/
def dirDX (d : Fin 4) : ℤ := if d = 0 then -1 else if d = 1 then 1 else 0

/-- Vertical component of direction index d, mirroring the conditional
chain dy = (dir == 2) ? -1 : (dir == 3) ? 1 : 0. -/
def dirDY (d : Fin 4) : ℤ := if d = 2 then -1 else if d = 3 then 1 else 0

/-- Exact rational addition rendered through mkRat so that it evaluates by
kernel reduction; proved equal to ordinary rational addition below. -/
def ratAdd (a b : ℚ) : ℚ := mkRat (a.num * b.den + b.num * a.den) (a.den * b.den)

/-- One inner step of drunkAgent: mark the current cell when inside the
grid, then either move along the heading, or on a wall bounce redraw the
heading and skip the rest of the step, and after a successful move roll the
adaptive direction change probability. -/
def innerStep (W H : ℤ) (probIncreaseChange : ℚ) (rng : RNG) (s : DAState) : DAState :=
  let m1 : Map :=
    if 0 ≤ s.agentX ∧ s.agentX < H ∧ 0 ≤ s.agentY ∧ s.agentY < W then
      setCell s.map s.agentX.toNat s.agentY.toNat 1
    else s.map
  let newX := s.agentX + s.dx
  let newY := s.agentY + s.dy
  if 0 ≤ newX ∧ newX < H ∧ 0 ≤ newY ∧ newY < W then
    if rng.chance s.ci < s.probChangeDirection then
      let d := rng.dir s.di
      { s with map := m1, agentX := newX, agentY := newY,
               dx := dirDX d, dy := dirDY d,
               probChangeDirection := mkRat 2 10,
               ci := s.ci + 1, di := s.di + 1 }
    else
      { s with map := m1, agentX := newX, agentY := newY,
               probChangeDirection := ratAdd s.probChangeDirection probIncreaseChange,
               ci := s.ci + 1 }
  else
    let d := rng.dir s.di
    { s with map := m1, dx := dirDX d, dy := dirDY d, di := s.di + 1 }

/-- The room stamping loop: mark every cell of the rectangle of half widths
halfX (rows) and halfY (columns) centered on the agent position, silently
skipping cells outside the grid. -/
def stampRoom (W H halfX halfY ax ay : ℤ) (m : Map) : Map :=
  (intRange (-halfX) halfX).foldl (fun acc dxRoom =>
    (intRange (-halfY) halfY).foldl (fun acc2 dyRoom =>
      let rx := ax + dxRoom
      let ry := ay + dyRoom
      if 0 ≤ rx ∧ rx < H ∧ 0 ≤ ry ∧ ry < W then
        setCell acc2 rx.toNat ry.toNat 1
      else acc2) acc) m

/-- The per walk room decision of drunkAgent: with probability
probGenerateRoom stamp a room centered on the agent and reset the
probability, otherwise increase it. -/
def roomDecision (W H roomSizeX roomSizeY : ℤ) (probIncreaseRoom : ℚ)
    (rng : RNG) (s : DAState) : DAState :=
  if rng.chance s.ci < s.probGenerateRoom then
    { s with
      map := stampRoom W H (roomSizeX.tdiv 2) (roomSizeY.tdiv 2) s.agentX s.agentY s.map,
      probGenerateRoom := mkRat 1 10,
      ci := s.ci + 1 }
  else
    { s with probGenerateRoom := ratAdd s.probGenerateRoom probIncreaseRoom,
             ci := s.ci + 1 }

/-- One outer walk of drunkAgent: I inner steps followed by one room
decision. -/
def walkOnce (W H roomSizeX roomSizeY : ℤ) (I : ℕ)
    (probIncreaseRoom probIncreaseChange : ℚ) (rng : RNG) (s : DAState) : DAState :=
  roomDecision W H roomSizeX roomSizeY probIncreaseRoom rng
    ((List.range I).foldl (fun st _ => innerStep W H probIncreaseChange rng st) s)

/-- The state at the start of a drunkAgent call: the input map, the caller
owned agent position, the fixed initial heading dx = 0, dy = 1, the two
probabilities at their passed base values, and no draws consumed yet. -/
def initState (m : Map) (probGenerateRoom probChangeDirection : ℚ)
    (agentX agentY : ℤ) : DAState :=
  { map := m, agentX := agentX, agentY := agentY, dx := 0, dy := 1,
    probGenerateRoom := probGenerateRoom,
    probChangeDirection := probChangeDirection, ci := 0, di := 0 }

/-- The drunkAgent function of the source: J walks of I steps each over a
copy of the input map.  The returned state carries the new map, the final
agent position (written back through the reference parameters in the
source), and the final values of the call local variables. -/
def drunkAgent (currentMap : Map) (W H : ℤ) (J I : ℕ) (roomSizeX roomSizeY : ℤ)
    (probGenerateRoom probIncreaseRoom probChangeDirection probIncreaseChange : ℚ)
    (agentX agentY : ℤ) (rng : RNG) : DAState :=
  (List.range J).foldl
    (fun st _ => walkOnce W H roomSizeX roomSizeY I probIncreaseRoom probIncreaseChange rng st)
    (initState currentMap probGenerateRoom probChangeDirection agentX agentY)

/-- Number of occupied cells of a map. -/
def countOccupied (m : Map) : ℕ :=
  (m.map (fun row => row.countP (fun v => v == 1))).sum

/-! ### Statement vocabulary derived from the loop structure -/

/-- The position (x, y) lies inside the grid of H rows and W columns. -/
abbrev inGrid (W H x y : ℤ) : Prop := 0 ≤ x ∧ x < H ∧ 0 ≤ y ∧ y < W

/-- The window offsets (dx, dy) with both components in [-R, R], enumerated
in the order of the two nested neighbor loops. -/
def window (R : ℤ) : List (ℤ × ℤ) :=
  (intRange (-R) R).flatMap (fun dx => (intRange (-R) R).map (fun dy => (dx, dy)))

/-- Number of window coordinates around cell (i, j) that are outside the
grid or occupied in m: the count the specification describes. -/
def caCountSpec (m : Map) (W H R : ℤ) (i j : ℕ) : ℕ :=
  ((window R).filter (fun p =>
    decide (¬ inGrid W H ((i : ℤ) + p.1) ((j : ℤ) + p.2) ∨
      getCell m ((i : ℤ) + p.1).toNat ((j : ℤ) + p.2).toNat = 1))).length

/-- Number of window coordinates around cell (i, j) that fall inside the
grid. -/
def inGridWindowCount (W H R : ℤ) (i j : ℕ) : ℕ :=
  ((window R).filter (fun p =>
    decide (inGrid W H ((i : ℤ) + p.1) ((j : ℤ) + p.2)))).length

/-- Number of window coordinates around cell (i, j) that fall outside the
grid and hence count as occupied. -/
def outWindowCount (W H R : ℤ) (i j : ℕ) : ℕ :=
  ((window R).filter (fun p =>
    decide (¬ inGrid W H ((i : ℤ) + p.1) ((j : ℤ) + p.2)))).length

/-- The grid cells written by the room stamping loop: the coordinates of the
rectangle around (ax, ay) that fall inside the grid. -/
def roomCells (W H halfX halfY ax ay : ℤ) : List (ℕ × ℕ) :=
  (((intRange (-halfX) halfX).flatMap (fun dxRoom =>
      (intRange (-halfY) halfY).map (fun dyRoom => (ax + dxRoom, ay + dyRoom)))).filter
    (fun q => decide (0 ≤ q.1 ∧ q.1 < H ∧ 0 ≤ q.2 ∧ q.2 < W))).map
    (fun q => (q.1.toNat, q.2.toNat))

/-- The map after the marking part of one inner step: the agent cell is
marked when the agent stands inside the grid. -/
def markCurrent (W H : ℤ) (s : DAState) : Map :=
  if inGrid W H s.agentX s.agentY then setCell s.map s.agentX.toNat s.agentY.toNat 1
  else s.map

/-- Map m1 is occupancy below map m2: every cell occupied in m1 is occupied
in m2. -/
def mapLE (m1 m2 : Map) : Prop :=
  ∀ i j : ℕ, getCell m1 i j = 1 → getCell m2 i j = 1

/-- The parameters of one drunkAgent call, for composing call sequences. -/
structure CallParams where
  W : ℤ
  H : ℤ
  J : ℕ
  I : ℕ
  roomSizeX : ℤ
  roomSizeY : ℤ
  probGenerateRoom : ℚ
  probIncreaseRoom : ℚ
  probChangeDirection : ℚ
  probIncreaseChange : ℚ
  rng : RNG

/-- A sequence of drunkAgent calls threading the map and the caller owned
agent position from each call into the next. -/
def runCalls (l : List CallParams) (m : Map) (ax ay : ℤ) : Map × ℤ × ℤ :=
  l.foldl (fun acc c =>
    let s := drunkAgent acc.1 c.W c.H c.J c.I c.roomSizeX c.roomSizeY
      c.probGenerateRoom c.probIncreaseRoom c.probChangeDirection c.probIncreaseChange
      acc.2.1 acc.2.2 c.rng
    (s.map, s.agentX, s.agentY)) (m, ax, ay)

/-- The all empty 10 by 20 grid of the end to end scenario. -/
def empty10x20 : Map := List.replicate 10 (List.replicate 20 (0 : ℤ))

/-- The all empty 3 by 3 grid of the boundary bias scenario. -/
def empty3x3 : Map := List.replicate 3 (List.replicate 3 (0 : ℤ))

/-- The all empty 7 by 7 grid used to exhibit the room stamping axes. -/
def empty7x7 : Map := List.replicate 7 (List.replicate 7 (0 : ℤ))

/-- Draw streams steering the agent along a self avoiding snake through the
10 by 20 scenario grid: the chance stream fires the direction rolls needed
for the turns and fires every room decision, and the direction stream
supplies the turns. -/
def rngSnake : RNG :=
  { chance := fun n =>
      if n ∈ ([8, 9, 10, 19, 20, 21, 30, 31, 32, 41, 42, 43, 52, 54] : List ℕ) then
        mkRat 0 1
      else mkRat 99 100,
    dir := fun n => ([0, 2, 0, 3, 0, 2, 0, 3, 0] : List (Fin 4)).getD n 0 }

/-- Draw streams for the agent that starts outside the grid: the direction
draws keep the agent stuck outside and the chance draws fire the room
decision. -/
def rngStuck : RNG :=
  { chance := fun _ => mkRat 0 1,
    dir := fun _ => 2 }

/-- Draw streams in which every probabilistic decision fires and every
direction draw returns the first cardinal direction. -/
def rngFire : RNG :=
  { chance := fun _ => mkRat 0 1,
    dir := fun _ => 0 }

/-! ### Basic facts about the embedded arithmetic helpers -/

theorem ratAdd_eq (a b : ℚ) : ratAdd a b = a + b := by
  have ha : (a.den : ℚ) ≠ 0 := Nat.cast_ne_zero.mpr a.den_nz
  have hb : (b.den : ℚ) ≠ 0 := Nat.cast_ne_zero.mpr b.den_nz
  have h1 : (a : ℚ) * a.den = a.num := by
    nth_rewrite 1 [← Rat.num_div_den a]
    exact div_mul_cancel₀ _ ha
  have h2 : (b : ℚ) * b.den = b.num := by
    nth_rewrite 1 [← Rat.num_div_den b]
    exact div_mul_cancel₀ _ hb
  rw [ratAdd, Rat.mkRat_eq_div]
  push_cast
  rw [div_eq_iff (mul_ne_zero ha hb)]
  linear_combination (-(b.den : ℚ)) * h1 - (a.den : ℚ) * h2

theorem land1_lorShl1 (v w : ℤ) : land1 (lorShl1 v w) = land1 v := by
  unfold land1 lorShl1
  split
  · rfl
  · split
    · show (v + 2) % 2 = v % 2
      omega
    · rfl

theorem shr1land1_lorShl1 (v w : ℤ) (hv : v = 0 ∨ v = 1) (hw : w = 0 ∨ w = 1) :
    shr1land1 (lorShl1 v w) = w := by
  rcases hv with rfl | rfl <;> rcases hw with rfl | rfl <;> decide

theorem shr1land1_cases (v : ℤ) : shr1land1 v = 0 ∨ shr1land1 v = 1 :=
  Int.emod_two_eq _

theorem land1_of_binary (v : ℤ) (hv : v = 0 ∨ v = 1) : land1 v = v := by
  rcases hv with rfl | rfl <;> decide

/-! ### Facts about cell reads and writes -/

theorem length_setCell (m : Map) (i j : ℕ) (v : ℤ) :
    (setCell m i j v).length = m.length := by
  simp [setCell]

theorem getCell_setCell (m : Map) (i j : ℕ) (v : ℤ) (a b : ℕ) :
    getCell (setCell m i j v) a b =
      if a = i ∧ b = j ∧ i < m.length ∧ j < (m.getD i []).length then v
      else getCell m a b := by
  unfold getCell setCell
  simp only [List.getD_eq_getElem?_getD, List.getElem?_set]
  by_cases hai : i = a
  · subst hai
    by_cases hil : i < m.length
    · simp only [if_pos rfl, if_pos hil, Option.getD_some]
      by_cases hjb : j = b
      · subst hjb
        by_cases hjl : j < (m[i]?.getD []).length
        · simp only [List.getElem?_set, if_pos rfl]
          simp only [hjl, hil, if_pos, and_self, true_and, if_true]
          simp only [List.getElem?_eq_getElem hil, Option.getD_some] at hjl ⊢
          rw [List.getElem?_set_self hjl]
          rfl
        · simp [hjl, List.set_eq_of_length_le (Nat.le_of_not_lt hjl),
            List.getElem?_eq_none (Nat.le_of_not_lt hjl)]
      · have : ¬(i = i ∧ b = j ∧ i < m.length ∧ j < (m[i]?.getD []).length) := by
          intro h
          exact hjb h.2.1.symm
        simp [Ne.symm hjb, this, List.getElem?_set_ne hjb]
    · have hnone : m[i]? = none := List.getElem?_eq_none (Nat.le_of_not_lt hil)
      have : ¬(i = i ∧ b = j ∧ i < m.length ∧ j < (m[i]?.getD []).length) := by
        intro h
        exact hil h.2.2.1
      simp [hil, hnone, this]
  · have : ¬(a = i ∧ b = j ∧ i < m.length ∧ j < (m[i]?.getD []).length) := by
      intro h
      exact hai h.1.symm
    simp [hai, this]

theorem getCell_setCell_self (m : Map) (i j : ℕ) (v : ℤ)
    (hi : i < m.length) (hj : j < (m.getD i []).length) :
    getCell (setCell m i j v) i j = v := by
  rw [getCell_setCell, if_pos ⟨rfl, rfl, hi, hj⟩]

theorem getCell_setCell_ne (m : Map) (i j : ℕ) (v : ℤ) (a b : ℕ)
    (h : ¬(a = i ∧ b = j)) :
    getCell (setCell m i j v) a b = getCell m a b := by
  rw [getCell_setCell]
  have hc : ¬(a = i ∧ b = j ∧ i < m.length ∧ j < (m.getD i []).length) := by
    intro hc
    exact h ⟨hc.1, hc.2.1⟩
  rw [if_neg hc]

theorem getCell_setCell_cases (m : Map) (i j : ℕ) (v : ℤ) (a b : ℕ) :
    getCell (setCell m i j v) a b = v ∨ getCell (setCell m i j v) a b = getCell m a b := by
  rw [getCell_setCell]
  split
  · exact Or.inl rfl
  · exact Or.inr rfl

/-! ### Facts about grid dimensions -/

theorem getD_mem {α : Type} (l : List α) (n : ℕ) (d : α) (h : n < l.length) :
    l.getD n d ∈ l := by
  rw [List.getD_eq_getElem?_getD, List.getElem?_eq_getElem h, Option.getD_some]
  exact List.getElem_mem h

theorem dimsOk_setCell (H W : ℕ) (m : Map) (i j : ℕ) (v : ℤ)
    (hd : dimsOk H W m) : dimsOk H W (setCell m i j v) := by
  obtain ⟨hlen, hrow⟩ := hd
  by_cases hi : i < m.length
  · refine ⟨by rw [length_setCell]; exact hlen, ?_⟩
    intro row hmem
    rcases List.mem_or_eq_of_mem_set hmem with hrm | rfl
    · exact hrow row hrm
    · rw [List.length_set]
      exact hrow _ (getD_mem m i [] hi)
  · unfold setCell
    rw [List.set_eq_of_length_le (Nat.le_of_not_lt hi)]
    exact ⟨hlen, hrow⟩

theorem rowlen_of_dims (H W : ℕ) (m : Map) (hd : dimsOk H W m) (i : ℕ) (hi : i < H) :
    (m.getD i []).length = W :=
  hd.2 _ (getD_mem m i [] (by rw [hd.1]; exact hi))

/-- Out of range reads of a well dimensioned grid return the default 0. -/
theorem getCell_out_of_range (H W : ℕ) (m : Map) (hd : dimsOk H W m) (a b : ℕ)
    (h : ¬(a < H ∧ b < W)) : getCell m a b = 0 := by
  unfold getCell
  by_cases ha : a < H
  · have hb : ¬ b < W := fun hb => h ⟨ha, hb⟩
    rw [List.getD_eq_default]
    rw [rowlen_of_dims H W m hd a ha]
    exact Nat.le_of_not_lt hb
  · rw [List.getD_eq_default m _ (by rw [hd.1]; exact Nat.le_of_not_lt ha)]
    rfl

/-- Membership formulation and coordinate formulation of a cellwise property
agree on a well dimensioned grid. -/
theorem forall_mem_iff_getCell (H W : ℕ) (m : Map) (hd : dimsOk H W m) (P : ℤ → Prop) :
    (∀ row ∈ m, ∀ v ∈ row, P v) ↔ (∀ a b : ℕ, a < H → b < W → P (getCell m a b)) := by
  constructor
  · intro h a b ha hb
    have hrow : m.getD a [] ∈ m := getD_mem m a [] (by rw [hd.1]; exact ha)
    have hcell : (m.getD a []).getD b 0 ∈ m.getD a [] := by
      apply getD_mem
      rw [rowlen_of_dims H W m hd a ha]
      exact hb
    exact h _ hrow _ hcell
  · intro h row hrow v hv
    obtain ⟨a, ha, rfl⟩ := List.mem_iff_getElem.mp hrow
    obtain ⟨b, hb, rfl⟩ := List.mem_iff_getElem.mp hv
    have ha2 : a < H := by rw [← hd.1]; exact ha
    have hrl : m[a].length = W := hd.2 _ (List.getElem_mem ha)
    have hb2 : b < W := by rw [← hrl]; exact hb
    have : getCell m a b = m[a][b] := by
      unfold getCell
      simp only [List.getD_eq_getElem?_getD]
      rw [List.getElem?_eq_getElem ha, Option.getD_some, List.getElem?_eq_getElem hb,
        Option.getD_some]
    rw [← this]
    exact h a b ha2 hb2

/-! ### Loop index ranges -/

theorem mem_intRange (a b x : ℤ) : x ∈ intRange a b ↔ a ≤ x ∧ x ≤ b := by
  unfold intRange
  rw [List.mem_map]
  constructor
  · rintro ⟨k, hk, rfl⟩
    rw [List.mem_range] at hk
    omega
  · intro h
    refine ⟨(x - a).toNat, ?_, ?_⟩
    · rw [List.mem_range]
      omega
    · omega

theorem length_intRange (a b : ℤ) : (intRange a b).length = (b + 1 - a).toNat := by
  rw [intRange, List.length_map, List.length_range]

theorem nodup_intRange (a b : ℤ) : (intRange a b).Nodup := by
  unfold intRange
  apply List.Nodup.map
  · intro x y h
    simp only at h
    omega
  · exact List.nodup_range _

theorem mem_positions (H W : ℕ) (p : ℕ × ℕ) : p ∈ positions H W ↔ p.1 < H ∧ p.2 < W := by
  unfold positions
  simp only [List.mem_flatMap, List.mem_map, List.mem_range]
  constructor
  · rintro ⟨i, hi, j, hj, rfl⟩
    exact ⟨hi, hj⟩
  · intro h
    exact ⟨p.1, h.1, p.2, h.2, rfl⟩

theorem nodup_flatMap_disjoint {α β : Type} (l : List α) (f : α → List β)
    (hl : l.Nodup) (hf : ∀ x ∈ l, (f x).Nodup)
    (hdisj : ∀ x ∈ l, ∀ y ∈ l, x ≠ y → ∀ b ∈ f x, b ∉ f y) :
    (l.flatMap f).Nodup := by
  induction l with
  | nil => simp
  | cons x xs ih =>
    rw [List.flatMap_cons]
    apply List.Nodup.append
    · exact hf x (List.mem_cons_self x xs)
    · exact ih (List.Nodup.of_cons hl) (fun y hy => hf y (List.mem_cons_of_mem x hy))
        (fun c hc y hy hne b hb =>
          hdisj c (List.mem_cons_of_mem x hc) y (List.mem_cons_of_mem x hy) hne b hb)
    · intro b hb hb2
      obtain ⟨y, hy, hby⟩ := List.mem_flatMap.mp hb2
      have hxy : x ≠ y := by
        rintro rfl
        exact (List.nodup_cons.mp hl).1 hy
      exact hdisj x (List.mem_cons_self x xs) y (List.mem_cons_of_mem x hy) hxy b hb hby

theorem nodup_positions (H W : ℕ) : (positions H W).Nodup := by
  unfold positions
  apply nodup_flatMap_disjoint
  · exact List.nodup_range H
  · intro i _
    exact List.Nodup.map (fun x y h => by simpa using congrArg Prod.snd h)
      (List.nodup_range W)
  · intro x _ y _ hxy b hbx hby
    obtain ⟨j1, _, rfl⟩ := List.mem_map.mp hbx
    obtain ⟨j2, _, h2⟩ := List.mem_map.mp hby
    exact hxy (by simpa using (congrArg Prod.fst h2).symm)

theorem mem_window (R : ℤ) (p : ℤ × ℤ) :
    p ∈ window R ↔ (-R ≤ p.1 ∧ p.1 ≤ R) ∧ (-R ≤ p.2 ∧ p.2 ≤ R) := by
  unfold window
  simp only [List.mem_flatMap, List.mem_map]
  constructor
  · rintro ⟨dx, hdx, dy, hdy, rfl⟩
    exact ⟨(mem_intRange _ _ _).mp hdx, (mem_intRange _ _ _).mp hdy⟩
  · intro h
    exact ⟨p.1, (mem_intRange _ _ _).mpr h.1, p.2, (mem_intRange _ _ _).mpr h.2, rfl⟩

/-! ### Generic loop lemmas -/

theorem foldl_flatMap {α β γ : Type} (l : List α) (f : α → List γ) (g : β → γ → β) (b : β) :
    (l.flatMap f).foldl g b = l.foldl (fun acc x => (f x).foldl g acc) b := by
  induction l generalizing b with
  | nil => rfl
  | cons x xs ih => rw [List.flatMap_cons, List.foldl_append, List.foldl_cons, ih]

theorem foldl_guard_filter {α β : Type} (l : List α) (c : α → Bool) (g : β → α → β) (b : β) :
    l.foldl (fun acc x => if c x then g acc x else acc) b = (l.filter c).foldl g b := by
  induction l generalizing b with
  | nil => rfl
  | cons x xs ih =>
    rw [List.foldl_cons, List.filter_cons]
    by_cases hc : c x
    · rw [if_pos hc, if_pos hc, List.foldl_cons, ih]
    · rw [if_neg hc, if_neg hc, ih]

theorem foldl_invariant {α β : Type} (P : β → Prop) (g : β → α → β) (l : List α) (b : β)
    (hb : P b) (hg : ∀ y a, P y → P (g y a)) : P (l.foldl g b) := by
  induction l generalizing b with
  | nil => exact hb
  | cons x xs ih => exact ih (g b x) (hg b x hb)

theorem foldl_add_indicator {α : Type} (l : List α) (t : α → ℤ) (c : α → Bool)
    (h : ∀ x ∈ l, t x = if c x then 1 else 0) :
    ∀ acc : ℤ, l.foldl (fun a x => a + t x) acc = acc + ((l.filter c).length : ℤ) := by
  induction l with
  | nil => simp
  | cons x xs ih =>
    intro acc
    rw [List.foldl_cons, ih (fun y hy => h y (List.mem_cons_of_mem x hy)), List.filter_cons]
    rw [h x (List.mem_cons_self x xs)]
    by_cases hc : c x
    · rw [if_pos hc, if_pos hc]
      simp only [List.length_cons]
      push_cast
      ring
    · rw [if_neg hc, if_neg hc]
      ring_nf

/-- Main loop invariant of the cell writing passes.  Folding a write of
value v over a duplicate free list of in range cells, starting from the base
map m with the cells of done already overlaid by f, yields m with the cells
of done and rest overlaid by f; the hypothesis hv states that the written
value agrees with f at any cell not yet overlaid. -/
theorem foldl_setCell_overlay (H W : ℕ) (m : Map) (f : ℕ × ℕ → ℤ)
    (v : Map → ℕ × ℕ → ℤ)
    (hv : ∀ acc p, p.1 < H → p.2 < W → dimsOk H W acc →
      (∀ a b : ℕ, getCell acc a b = f (a, b) ∨ getCell acc a b = getCell m a b) →
      getCell acc p.1 p.2 = getCell m p.1 p.2 →
      v acc p = f p) :
    ∀ (rest done : List (ℕ × ℕ)) (acc : Map),
      rest.Nodup → (∀ p ∈ rest, p.1 < H ∧ p.2 < W) → (∀ p ∈ rest, p ∉ done) →
      dimsOk H W acc →
      (∀ a b : ℕ, getCell acc a b = if (a, b) ∈ done then f (a, b) else getCell m a b) →
      dimsOk H W (rest.foldl (fun ac p => setCell ac p.1 p.2 (v ac p)) acc) ∧
      ∀ a b : ℕ,
        getCell (rest.foldl (fun ac p => setCell ac p.1 p.2 (v ac p)) acc) a b =
          if (a, b) ∈ done ∨ (a, b) ∈ rest then f (a, b) else getCell m a b := by
  intro rest
  induction rest with
  | nil =>
    intro done acc _ _ _ hdims hov
    refine ⟨hdims, ?_⟩
    intro a b
    rw [List.foldl_nil]
    simp only [List.not_mem_nil, or_false]
    exact hov a b
  | cons p rest ih =>
    obtain ⟨p1, p2⟩ := p
    intro done acc hnd hinb hdisj hdims hov
    rw [List.foldl_cons]
    have hpH : p1 < H := (hinb (p1, p2) (List.mem_cons_self _ rest)).1
    have hpW : p2 < W := (hinb (p1, p2) (List.mem_cons_self _ rest)).2
    have hpdone : (p1, p2) ∉ done := hdisj (p1, p2) (List.mem_cons_self _ rest)
    have hcases : ∀ a b : ℕ, getCell acc a b = f (a, b) ∨ getCell acc a b = getCell m a b := by
      intro a b
      rw [hov a b]
      by_cases hab : (a, b) ∈ done
      · rw [if_pos hab]
        exact Or.inl rfl
      · rw [if_neg hab]
        exact Or.inr rfl
    have hpv : getCell acc p1 p2 = getCell m p1 p2 := by
      have h := hov p1 p2
      rwa [if_neg hpdone] at h
    have hval : v acc (p1, p2) = f (p1, p2) := hv acc (p1, p2) hpH hpW hdims hcases hpv
    have hdims2 : dimsOk H W (setCell acc p1 p2 (v acc (p1, p2))) :=
      dimsOk_setCell H W acc p1 p2 _ hdims
    have hov2 : ∀ a b : ℕ,
        getCell (setCell acc p1 p2 (v acc (p1, p2))) a b =
          if (a, b) ∈ (p1, p2) :: done then f (a, b) else getCell m a b := by
      intro a b
      by_cases hab : a = p1 ∧ b = p2
      · obtain ⟨rfl, rfl⟩ := hab
        rw [getCell_setCell_self acc a b _ (by rw [hdims.1]; exact hpH)
          (by rw [rowlen_of_dims H W acc hdims a hpH]; exact hpW)]
        rw [if_pos (List.mem_cons_self _ done), hval]
      · rw [getCell_setCell_ne acc p1 p2 _ a b hab]
        have hne : (a, b) ≠ (p1, p2) := by
          intro hc
          exact hab ⟨congrArg Prod.fst hc, congrArg Prod.snd hc⟩
        rw [hov a b]
        by_cases hd : (a, b) ∈ done
        · rw [if_pos hd, if_pos (List.mem_cons_of_mem _ hd)]
        · rw [if_neg hd, if_neg (by
            intro hc
            rcases List.mem_cons.mp hc with h1 | h2
            · exact hne h1
            · exact hd h2)]
    have hrest := ih ((p1, p2) :: done) (setCell acc p1 p2 (v acc (p1, p2)))
      (List.Nodup.of_cons hnd)
      (fun q hq => hinb q (List.mem_cons_of_mem _ hq))
      (fun q hq hqd => by
        rcases List.mem_cons.mp hqd with h1 | h2
        · rw [h1] at hq
          exact (List.nodup_cons.mp hnd).1 hq
        · exact hdisj q (List.mem_cons_of_mem _ hq) h2)
      hdims2 hov2
    refine ⟨hrest.1, ?_⟩
    intro a b
    rw [hrest.2 a b]
    refine if_congr ?_ rfl rfl
    simp only [List.mem_cons]
    tauto

/-! ### The cellular automata pass -/

theorem caCount_congr (m1 m2 : Map) (W H R : ℤ) (i j : ℕ)
    (h : ∀ a b : ℕ, land1 (getCell m1 a b) = land1 (getCell m2 a b)) :
    caCount m1 W H R i j = caCount m2 W H R i j := by
  unfold caCount
  apply List.foldl_ext
  intro acc dx _
  apply List.foldl_ext
  intro acc2 dy _
  dsimp only
  by_cases hin : 0 ≤ (i : ℤ) + dx ∧ (i : ℤ) + dx < H ∧ 0 ≤ (j : ℤ) + dy ∧ (j : ℤ) + dy < W
  · rw [if_pos hin, if_pos hin, h]
  · rw [if_neg hin, if_neg hin]

theorem caNewVal_congr (m1 m2 : Map) (W H R : ℤ) (U : ℚ) (i j : ℕ)
    (h : ∀ a b : ℕ, land1 (getCell m1 a b) = land1 (getCell m2 a b)) :
    caNewVal m1 W H R U i j = caNewVal m2 W H R U i j := by
  unfold caNewVal
  rw [caCount_congr m1 m2 W H R i j h]

theorem caNewVal_cases (m : Map) (W H R : ℤ) (U : ℚ) (i j : ℕ) :
    caNewVal m W H R U i j = 0 ∨ caNewVal m W H R U i j = 1 := by
  unfold caNewVal
  split
  · exact Or.inr rfl
  · exact Or.inl rfl

theorem caPass1_spec (W H R : ℤ) (U : ℚ) (m : Map) (hd : dimsOk H.toNat W.toNat m) :
    dimsOk H.toNat W.toNat (caPass1 W H R U m) ∧
    ∀ a b : ℕ,
      getCell (caPass1 W H R U m) a b =
        if a < H.toNat ∧ b < W.toNat then
          lorShl1 (getCell m a b) (caNewVal m W H R U a b)
        else getCell m a b := by
  have hrw : caPass1 W H R U m =
      (positions H.toNat W.toNat).foldl
        (fun ac p => setCell ac p.1 p.2
          (lorShl1 (getCell ac p.1 p.2) (caNewVal ac W H R U p.1 p.2))) m := rfl
  have h := foldl_setCell_overlay H.toNat W.toNat m
    (fun p => lorShl1 (getCell m p.1 p.2) (caNewVal m W H R U p.1 p.2))
    (fun ac p => lorShl1 (getCell ac p.1 p.2) (caNewVal ac W H R U p.1 p.2))
    (by
      intro acc p hp1 hp2 hdims hcase hpv
      have hagree : ∀ a b : ℕ, land1 (getCell acc a b) = land1 (getCell m a b) := by
        intro a b
        rcases hcase a b with h1 | h1
        · rw [h1]
          exact land1_lorShl1 _ _
        · rw [h1]
      dsimp only
      rw [hpv, caNewVal_congr acc m W H R U p.1 p.2 hagree])
    (positions H.toNat W.toNat) [] m (nodup_positions _ _)
    (fun p hp => (mem_positions _ _ p).mp hp)
    (fun p _ hmem => List.not_mem_nil p hmem) hd
    (fun a b => by rw [if_neg (List.not_mem_nil (a, b))])
  rw [hrw]
  refine ⟨h.1, ?_⟩
  intro a b
  rw [h.2 a b]
  refine if_congr ?_ rfl rfl
  rw [mem_positions]
  simp only [List.not_mem_nil, false_or]

theorem caPass2_spec (W H : ℤ) (m : Map) (hd : dimsOk H.toNat W.toNat m) :
    dimsOk H.toNat W.toNat (caPass2 W H m) ∧
    ∀ a b : ℕ,
      getCell (caPass2 W H m) a b =
        if a < H.toNat ∧ b < W.toNat then shr1land1 (getCell m a b)
        else getCell m a b := by
  have h := foldl_setCell_overlay H.toNat W.toNat m
    (fun p => shr1land1 (getCell m p.1 p.2))
    (fun ac p => shr1land1 (getCell ac p.1 p.2))
    (by
      intro acc p hp1 hp2 hdims hcase hpv
      dsimp only
      rw [hpv])
    (positions H.toNat W.toNat) [] m (nodup_positions _ _)
    (fun p hp => (mem_positions _ _ p).mp hp)
    (fun p _ hmem => List.not_mem_nil p hmem) hd
    (fun a b => by rw [if_neg (List.not_mem_nil (a, b))])
  refine ⟨h.1, ?_⟩
  intro a b
  rw [show caPass2 W H m =
      (positions H.toNat W.toNat).foldl
        (fun ac p => setCell ac p.1 p.2 (shr1land1 (getCell ac p.1 p.2))) m from rfl,
    h.2 a b]
  refine if_congr ?_ rfl rfl
  rw [mem_positions]
  simp only [List.not_mem_nil, false_or]

theorem getCell_binary_of_rows (H W : ℕ) (m : Map) (hd : dimsOk H W m)
    (hbin : ∀ row ∈ m, ∀ v ∈ row, v = 0 ∨ v = 1) :
    ∀ a b : ℕ, getCell m a b = 0 ∨ getCell m a b = 1 := by
  intro a b
  by_cases h : a < H ∧ b < W
  · exact (forall_mem_iff_getCell H W m hd _).mp hbin a b h.1 h.2
  · rw [getCell_out_of_range H W m hd a b h]
    exact Or.inl rfl

/-- The cellular automata step computes, at every in range cell, exactly the
synchronous rule value read from the input map, and it preserves the grid
dimensions. -/
theorem cellularAutomata_getCell (W H R : ℤ) (U : ℚ) (m : Map)
    (hd : dimsOk H.toNat W.toNat m)
    (hbin : ∀ a b : ℕ, getCell m a b = 0 ∨ getCell m a b = 1) :
    dimsOk H.toNat W.toNat (cellularAutomata m W H R U) ∧
    ∀ a b : ℕ, a < H.toNat → b < W.toNat →
      getCell (cellularAutomata m W H R U) a b = caNewVal m W H R U a b := by
  obtain ⟨hd1, hp1⟩ := caPass1_spec W H R U m hd
  obtain ⟨hd2, hp2⟩ := caPass2_spec W H (caPass1 W H R U m) hd1
  refine ⟨hd2, ?_⟩
  intro a b ha hb
  show getCell (caPass2 W H (caPass1 W H R U m)) a b = caNewVal m W H R U a b
  rw [hp2 a b, if_pos ⟨ha, hb⟩, hp1 a b, if_pos ⟨ha, hb⟩,
    shr1land1_lorShl1 _ _ (hbin a b) (caNewVal_cases m W H R U a b)]

theorem caCount_eq_window_foldl (m : Map) (W H R : ℤ) (i j : ℕ) :
    caCount m W H R i j =
      (window R).foldl (fun acc p =>
        if 0 ≤ (i : ℤ) + p.1 ∧ (i : ℤ) + p.1 < H ∧ 0 ≤ (j : ℤ) + p.2 ∧ (j : ℤ) + p.2 < W then
          acc + land1 (getCell m ((i : ℤ) + p.1).toNat ((j : ℤ) + p.2).toNat)
        else acc + 1) 0 := by
  unfold caCount window
  rw [foldl_flatMap]
  apply List.foldl_ext
  intro acc dx _
  rw [List.foldl_map]

theorem caCount_eq_spec (m : Map) (W H R : ℤ) (i j : ℕ)
    (hbin : ∀ a b : ℕ, getCell m a b = 0 ∨ getCell m a b = 1) :
    caCount m W H R i j = (caCountSpec m W H R i j : ℤ) := by
  rw [caCount_eq_window_foldl]
  unfold caCountSpec
  have hbody : ∀ p ∈ window R,
      (if 0 ≤ (i : ℤ) + p.1 ∧ (i : ℤ) + p.1 < H ∧ 0 ≤ (j : ℤ) + p.2 ∧ (j : ℤ) + p.2 < W then
        land1 (getCell m ((i : ℤ) + p.1).toNat ((j : ℤ) + p.2).toNat)
      else 1) =
      (if (decide (¬ inGrid W H ((i : ℤ) + p.1) ((j : ℤ) + p.2) ∨
          getCell m ((i : ℤ) + p.1).toNat ((j : ℤ) + p.2).toNat = 1) : Bool) then (1 : ℤ)
      else 0) := by
    intro p _
    by_cases hin : inGrid W H ((i : ℤ) + p.1) ((j : ℤ) + p.2)
    · rw [if_pos hin]
      rcases hbin ((i : ℤ) + p.1).toNat ((j : ℤ) + p.2).toNat with h0 | h1
      · rw [h0, if_neg]
        · decide
        · simp only [decide_eq_true_eq]
          simp [hin]
      · rw [h1, if_pos]
        · decide
        · simp only [decide_eq_true_eq]
          simp
    · rw [if_neg hin, if_pos]
      simp only [decide_eq_true_eq]
      exact Or.inl hin
  have hstep := foldl_add_indicator (window R)
    (fun p =>
      if 0 ≤ (i : ℤ) + p.1 ∧ (i : ℤ) + p.1 < H ∧ 0 ≤ (j : ℤ) + p.2 ∧ (j : ℤ) + p.2 < W then
        land1 (getCell m ((i : ℤ) + p.1).toNat ((j : ℤ) + p.2).toNat)
      else 1)
    (fun p => decide (¬ inGrid W H ((i : ℤ) + p.1) ((j : ℤ) + p.2) ∨
      getCell m ((i : ℤ) + p.1).toNat ((j : ℤ) + p.2).toNat = 1))
    hbody 0
  have hext : (window R).foldl (fun acc p =>
        if 0 ≤ (i : ℤ) + p.1 ∧ (i : ℤ) + p.1 < H ∧ 0 ≤ (j : ℤ) + p.2 ∧ (j : ℤ) + p.2 < W then
          acc + land1 (getCell m ((i : ℤ) + p.1).toNat ((j : ℤ) + p.2).toNat)
        else acc + 1) 0 =
      (window R).foldl (fun acc p =>
        acc + (if 0 ≤ (i : ℤ) + p.1 ∧ (i : ℤ) + p.1 < H ∧ 0 ≤ (j : ℤ) + p.2 ∧ (j : ℤ) + p.2 < W then
          land1 (getCell m ((i : ℤ) + p.1).toNat ((j : ℤ) + p.2).toNat)
        else 1)) 0 := by
    apply List.foldl_ext
    intro acc p _
    dsimp only
    by_cases hc : 0 ≤ (i : ℤ) + p.1 ∧ (i : ℤ) + p.1 < H ∧ 0 ≤ (j : ℤ) + p.2 ∧ (j : ℤ) + p.2 < W
    · rw [if_pos hc, if_pos hc]
    · rw [if_neg hc, if_neg hc]
  rw [hext, hstep, zero_add]

theorem mkRat_le_iff_div (U : ℚ) (c t : ℤ) (ht : 0 ≤ t) :
    (U ≤ mkRat c t.toNat) ↔ U ≤ (c : ℚ) / (t : ℚ) := by
  have h2 : ((t.toNat : ℕ) : ℚ) = (t : ℚ) := by exact_mod_cast Int.toNat_of_nonneg ht
  rw [Rat.mkRat_eq_div, h2]

/-! ### Claim C1 -/

/-- C1: for every grid of H rows and W columns whose cells are all 0 or 1,
W, H at least 1, R at least 0 and any threshold U, cellularAutomata returns
a grid of identical dimensions in which cell (a, b) is occupied exactly when
count / (2R+1)^2 is at least U, where count is the number of window
coordinates (a+dx, b+dy) with dx, dy in [-R, R] that are outside the grid
(counted as occupied) or occupied in the input grid; every neighbor read
observes the pre step value despite the bit packed single array update. -/
theorem C1_ca_synchronous_rule (m : Map) (W H R : ℤ) (U : ℚ)
    (hW : 1 ≤ W) (hH : 1 ≤ H) (hR : 0 ≤ R)
    (hd : dimsOk H.toNat W.toNat m)
    (hbin : ∀ row ∈ m, ∀ v ∈ row, v = 0 ∨ v = 1) :
    dimsOk H.toNat W.toNat (cellularAutomata m W H R U) ∧
    ∀ a b : ℕ, a < H.toNat → b < W.toNat →
      getCell (cellularAutomata m W H R U) a b =
        if (caCountSpec m W H R a b : ℚ) / (((2 * R + 1) * (2 * R + 1) : ℤ) : ℚ) ≥ U
        then 1 else 0 := by
  have hb2 := getCell_binary_of_rows H.toNat W.toNat m hd hbin
  obtain ⟨hdim, hval⟩ := cellularAutomata_getCell W H R U m hd hb2
  refine ⟨hdim, ?_⟩
  intro a b ha hb
  rw [hval a b ha hb]
  unfold caNewVal
  rw [caCount_eq_spec m W H R a b hb2]
  refine if_congr ?_ rfl rfl
  rw [ge_iff_le, mkRat_le_iff_div U _ _ (mul_self_nonneg _)]
  norm_cast

/-- C1 witness: the characterization evaluated at a concrete binary grid. -/
theorem C1_ca_synchronous_rule_witness :
    getCell (cellularAutomata [[1, 0], [0, 1]] 2 2 1 (mkRat 1 2)) 0 0 =
      if (caCountSpec [[1, 0], [0, 1]] 2 2 1 0 0 : ℚ) /
          (((2 * 1 + 1) * (2 * 1 + 1) : ℤ) : ℚ) ≥ mkRat 1 2
      then 1 else 0 :=
  (C1_ca_synchronous_rule [[1, 0], [0, 1]] 2 2 1 (mkRat 1 2) (by decide) (by decide)
    (by decide) (by decide) (by decide)).2 0 0 (by decide) (by decide)

/-! ### Claim C7 -/

/-- C7 counterexample: the center cell (1, 1) of the all empty 3 by 3 grid
with R = 1 has all 9 window coordinates inside the grid and none outside,
refuting the claim that every cell of that grid has at most 5 in grid
neighbors and at least 4 out of grid window coordinates. -/
theorem C7_counterexample :
    inGridWindowCount 3 3 1 1 1 = 9 ∧ outWindowCount 3 3 1 1 1 = 0 ∧
    ¬ (inGridWindowCount 3 3 1 1 1 ≤ 5 ∧ 4 ≤ outWindowCount 3 3 1 1 1) := by
  decide

/-- C7 amended: on the all empty 3 by 3 grid with R = 1 and U = 1/2, each
of the four corner cells has exactly 5 out of grid window coordinates
(counted as occupied) and 4 in grid ones out of its 9, and after one
cellularAutomata step the corner cell (0, 0) is occupied even though every
input cell is empty. -/
theorem C7_amended_boundary_bias :
    (∀ p ∈ ([(0, 0), (0, 2), (2, 0), (2, 2)] : List (ℕ × ℕ)),
      outWindowCount 3 3 1 p.1 p.2 = 5 ∧ inGridWindowCount 3 3 1 p.1 p.2 = 4 ∧
      outWindowCount 3 3 1 p.1 p.2 + inGridWindowCount 3 3 1 p.1 p.2 = 9) ∧
    (∀ row ∈ empty3x3, ∀ v ∈ row, v = 0) ∧
    getCell (cellularAutomata empty3x3 3 3 1 (mkRat 1 2)) 0 0 = 1 := by
  decide

/-! ### Claim C9 -/

/-- C9: for every input grid of the stated dimensions whose cells are
arbitrary integers, every cell of the grid returned by cellularAutomata is
exactly 0 or 1: neighbor reads use only the low bit of each input cell and
the second pass keeps only bit one shifted down, so the binary cell
invariant is reestablished by every step regardless of input values. -/
theorem C9_output_binary (m : Map) (W H R : ℤ) (U : ℚ)
    (hd : dimsOk H.toNat W.toNat m) :
    ∀ row ∈ cellularAutomata m W H R U, ∀ v ∈ row, v = 0 ∨ v = 1 := by
  obtain ⟨hd1, hp1⟩ := caPass1_spec W H R U m hd
  obtain ⟨hd2, hp2⟩ := caPass2_spec W H (caPass1 W H R U m) hd1
  have hdca : dimsOk H.toNat W.toNat (cellularAutomata m W H R U) := hd2
  rw [forall_mem_iff_getCell H.toNat W.toNat _ hdca]
  intro a b ha hb
  show getCell (caPass2 W H (caPass1 W H R U m)) a b = 0 ∨
    getCell (caPass2 W H (caPass1 W H R U m)) a b = 1
  rw [hp2 a b, if_pos ⟨ha, hb⟩]
  exact shr1land1_cases _

/-- C9 witness: a concrete cell of the output of the step on a grid holding
negative integer cells is 0 or 1. -/
theorem C9_output_binary_witness :
    getCell (cellularAutomata [[-7, 3], [4, -2]] 2 2 1 (mkRat 1 2)) 0 0 = 0 ∨
    getCell (cellularAutomata [[-7, 3], [4, -2]] 2 2 1 (mkRat 1 2)) 0 0 = 1 :=
  C9_output_binary [[-7, 3], [4, -2]] 2 2 1 (mkRat 1 2) (by decide)
    ((cellularAutomata [[-7, 3], [4, -2]] 2 2 1 (mkRat 1 2)).getD 0 [])
    (by decide)
    (getCell (cellularAutomata [[-7, 3], [4, -2]] 2 2 1 (mkRat 1 2)) 0 0)
    (by decide)

/-! ### Case analysis of the drunk agent step -/

theorem innerStep_bounce (W H : ℤ) (pic : ℚ) (rng : RNG) (s : DAState)
    (hout : ¬ inGrid W H (s.agentX + s.dx) (s.agentY + s.dy)) :
    innerStep W H pic rng s =
      { s with map := markCurrent W H s,
               dx := dirDX (rng.dir s.di), dy := dirDY (rng.dir s.di),
               di := s.di + 1 } := by
  simp only [innerStep, markCurrent]
  rw [if_neg hout]

theorem innerStep_move_fire (W H : ℤ) (pic : ℚ) (rng : RNG) (s : DAState)
    (hin : inGrid W H (s.agentX + s.dx) (s.agentY + s.dy))
    (hfire : rng.chance s.ci < s.probChangeDirection) :
    innerStep W H pic rng s =
      { s with map := markCurrent W H s,
               agentX := s.agentX + s.dx, agentY := s.agentY + s.dy,
               dx := dirDX (rng.dir s.di), dy := dirDY (rng.dir s.di),
               probChangeDirection := mkRat 2 10,
               ci := s.ci + 1, di := s.di + 1 } := by
  simp only [innerStep, markCurrent]
  rw [if_pos hin, if_pos hfire]

theorem innerStep_move_nofire (W H : ℤ) (pic : ℚ) (rng : RNG) (s : DAState)
    (hin : inGrid W H (s.agentX + s.dx) (s.agentY + s.dy))
    (hnof : ¬ (rng.chance s.ci < s.probChangeDirection)) :
    innerStep W H pic rng s =
      { s with map := markCurrent W H s,
               agentX := s.agentX + s.dx, agentY := s.agentY + s.dy,
               probChangeDirection := ratAdd s.probChangeDirection pic,
               ci := s.ci + 1 } := by
  simp only [innerStep, markCurrent]
  rw [if_pos hin, if_neg hnof]

theorem roomDecision_fire (W H rX rY : ℤ) (pir : ℚ) (rng : RNG) (s : DAState)
    (hfire : rng.chance s.ci < s.probGenerateRoom) :
    roomDecision W H rX rY pir rng s =
      { s with map := stampRoom W H (rX.tdiv 2) (rY.tdiv 2) s.agentX s.agentY s.map,
               probGenerateRoom := mkRat 1 10, ci := s.ci + 1 } := by
  unfold roomDecision
  rw [if_pos hfire]

theorem roomDecision_nofire (W H rX rY : ℤ) (pir : ℚ) (rng : RNG) (s : DAState)
    (hnof : ¬ (rng.chance s.ci < s.probGenerateRoom)) :
    roomDecision W H rX rY pir rng s =
      { s with probGenerateRoom := ratAdd s.probGenerateRoom pir, ci := s.ci + 1 } := by
  unfold roomDecision
  rw [if_neg hnof]

theorem roomDecision_agent (W H rX rY : ℤ) (pir : ℚ) (rng : RNG) (s : DAState) :
    (roomDecision W H rX rY pir rng s).agentX = s.agentX ∧
    (roomDecision W H rX rY pir rng s).agentY = s.agentY := by
  unfold roomDecision
  split
  · exact ⟨rfl, rfl⟩
  · exact ⟨rfl, rfl⟩

theorem innerStep_agent_inGrid (W H : ℤ) (pic : ℚ) (rng : RNG) (s : DAState)
    (h : inGrid W H s.agentX s.agentY) :
    inGrid W H (innerStep W H pic rng s).agentX (innerStep W H pic rng s).agentY := by
  by_cases hin : inGrid W H (s.agentX + s.dx) (s.agentY + s.dy)
  · by_cases hf : rng.chance s.ci < s.probChangeDirection
    · rw [innerStep_move_fire W H pic rng s hin hf]
      exact hin
    · rw [innerStep_move_nofire W H pic rng s hin hf]
      exact hin
  · rw [innerStep_bounce W H pic rng s hin]
    exact h

/-! ### Monotonicity of occupancy under the agent -/

theorem mapLE_refl (m : Map) : mapLE m m := fun _ _ h => h

theorem mapLE_trans {m1 m2 m3 : Map} (h1 : mapLE m1 m2) (h2 : mapLE m2 m3) :
    mapLE m1 m3 := fun i j h => h2 i j (h1 i j h)

theorem mapLE_setCell_one (m : Map) (i j : ℕ) : mapLE m (setCell m i j 1) := by
  intro a b h
  rcases getCell_setCell_cases m i j 1 a b with hc | hc
  · exact hc
  · rw [hc]
    exact h

theorem mapLE_markCurrent (W H : ℤ) (s : DAState) : mapLE s.map (markCurrent W H s) := by
  unfold markCurrent
  split
  · exact mapLE_setCell_one _ _ _
  · exact mapLE_refl _

theorem mapLE_innerStep (W H : ℤ) (pic : ℚ) (rng : RNG) (s : DAState) :
    mapLE s.map (innerStep W H pic rng s).map := by
  by_cases hin : inGrid W H (s.agentX + s.dx) (s.agentY + s.dy)
  · by_cases hf : rng.chance s.ci < s.probChangeDirection
    · rw [innerStep_move_fire W H pic rng s hin hf]
      exact mapLE_markCurrent W H s
    · rw [innerStep_move_nofire W H pic rng s hin hf]
      exact mapLE_markCurrent W H s
  · rw [innerStep_bounce W H pic rng s hin]
    exact mapLE_markCurrent W H s

theorem mapLE_stampRoom (W H hX hY ax ay : ℤ) (m : Map) :
    mapLE m (stampRoom W H hX hY ax ay m) := by
  unfold stampRoom
  refine foldl_invariant (fun acc => mapLE m acc) _ _ _ (mapLE_refl m) ?_
  intro acc dxRoom hacc
  refine foldl_invariant (fun acc2 => mapLE m acc2) _ _ _ hacc ?_
  intro acc2 dyRoom hacc2
  dsimp only
  split
  · exact mapLE_trans hacc2 (mapLE_setCell_one _ _ _)
  · exact hacc2

theorem mapLE_roomDecision (W H rX rY : ℤ) (pir : ℚ) (rng : RNG) (s : DAState) :
    mapLE s.map (roomDecision W H rX rY pir rng s).map := by
  by_cases hf : rng.chance s.ci < s.probGenerateRoom
  · rw [roomDecision_fire W H rX rY pir rng s hf]
    exact mapLE_stampRoom _ _ _ _ _ _ _
  · rw [roomDecision_nofire W H rX rY pir rng s hf]
    exact mapLE_refl _

theorem mapLE_walkOnce (W H rX rY : ℤ) (I : ℕ) (pir pic : ℚ) (rng : RNG) (s : DAState) :
    mapLE s.map (walkOnce W H rX rY I pir pic rng s).map := by
  unfold walkOnce
  have hsteps : mapLE s.map
      ((List.range I).foldl (fun st _ => innerStep W H pic rng st) s).map := by
    refine foldl_invariant (fun st : DAState => mapLE s.map st.map) _ _ _ (mapLE_refl _) ?_
    intro st k hst
    exact mapLE_trans hst (mapLE_innerStep W H pic rng st)
  exact mapLE_trans hsteps (mapLE_roomDecision W H rX rY pir rng _)

theorem mapLE_drunkAgent (m : Map) (W H : ℤ) (J I : ℕ) (rX rY : ℤ)
    (pg pir pc pic : ℚ) (ax ay : ℤ) (rng : RNG) :
    mapLE m (drunkAgent m W H J I rX rY pg pir pc pic ax ay rng).map := by
  unfold drunkAgent
  refine foldl_invariant (fun st : DAState => mapLE m st.map) _ _ _ (mapLE_refl _) ?_
  intro st k hst
  exact mapLE_trans hst (mapLE_walkOnce W H rX rY I pir pic rng st)

/-! ### Claim C4 -/

/-- C4: for every input grid, parameter setting and draw sequence, the grid
returned by drunkAgent occupies a superset of the input occupied set (no
call ever clears an occupied cell), and hence occupancy is non decreasing
over any sequence of drunkAgent calls. -/
theorem C4_monotone_occupancy (m : Map) (W H : ℤ) (J I : ℕ) (rX rY : ℤ)
    (pg pir pc pic : ℚ) (ax ay : ℤ) (rng : RNG) :
    (∀ i j : ℕ, getCell m i j = 1 →
      getCell (drunkAgent m W H J I rX rY pg pir pc pic ax ay rng).map i j = 1) ∧
    (∀ (l : List CallParams) (m0 : Map) (x y : ℤ) (i j : ℕ),
      getCell m0 i j = 1 → getCell (runCalls l m0 x y).1 i j = 1) := by
  constructor
  · exact mapLE_drunkAgent m W H J I rX rY pg pir pc pic ax ay rng
  · intro l m0 x y
    unfold runCalls
    have h := foldl_invariant (fun acc : Map × ℤ × ℤ => mapLE m0 acc.1)
      (fun acc c =>
        let s := drunkAgent acc.1 c.W c.H c.J c.I c.roomSizeX c.roomSizeY
          c.probGenerateRoom c.probIncreaseRoom c.probChangeDirection c.probIncreaseChange
          acc.2.1 acc.2.2 c.rng
        (s.map, s.agentX, s.agentY))
      l (m0, x, y) (mapLE_refl m0) ?_
    · exact h
    · intro acc c hacc
      exact mapLE_trans hacc
        (mapLE_drunkAgent acc.1 c.W c.H c.J c.I c.roomSizeX c.roomSizeY
          c.probGenerateRoom c.probIncreaseRoom c.probChangeDirection c.probIncreaseChange
          acc.2.1 acc.2.2 c.rng)

/-- C4 witness: an occupied cell of a concrete input grid is still occupied
after a concrete drunkAgent call. -/
theorem C4_monotone_occupancy_witness :
    getCell (drunkAgent [[1, 0], [0, 0]] 2 2 1 1 0 0 (mkRat 1 10) (mkRat 1 20)
      (mkRat 1 5) (mkRat 1 50) 0 0 rngFire).map 0 0 = 1 :=
  (C4_monotone_occupancy [[1, 0], [0, 0]] 2 2 1 1 0 0 (mkRat 1 10) (mkRat 1 20)
    (mkRat 1 5) (mkRat 1 50) 0 0 rngFire).1 0 0 (by decide)

/-! ### Claim C5 -/

/-- C5: for J, I at least 1, W, H at least 1, any draw sequence and any
initial agent position inside the grid, the agent position stays inside
[0,H) x [0,W): it is preserved by every single inner step, is untouched by
the room decision, and hence holds at the end of every drunkAgent call. -/
theorem C5_agent_bounds (m : Map) (W H : ℤ) (J I : ℕ) (rX rY : ℤ)
    (pg pir pc pic : ℚ) (ax ay : ℤ) (rng : RNG)
    (hJ : 1 ≤ J) (hI : 1 ≤ I) (hW : 1 ≤ W) (hH : 1 ≤ H)
    (hpos : inGrid W H ax ay) :
    (∀ s : DAState, inGrid W H s.agentX s.agentY →
      inGrid W H (innerStep W H pic rng s).agentX (innerStep W H pic rng s).agentY) ∧
    (∀ s : DAState, (roomDecision W H rX rY pir rng s).agentX = s.agentX ∧
      (roomDecision W H rX rY pir rng s).agentY = s.agentY) ∧
    inGrid W H (drunkAgent m W H J I rX rY pg pir pc pic ax ay rng).agentX
      (drunkAgent m W H J I rX rY pg pir pc pic ax ay rng).agentY := by
  refine ⟨fun s => innerStep_agent_inGrid W H pic rng s,
    fun s => roomDecision_agent W H rX rY pir rng s, ?_⟩
  unfold drunkAgent
  refine foldl_invariant (fun st : DAState => inGrid W H st.agentX st.agentY) _ _ _ hpos ?_
  intro st k hst
  unfold walkOnce
  have hsteps := foldl_invariant (fun s2 : DAState => inGrid W H s2.agentX s2.agentY)
    (fun s2 _ => innerStep W H pic rng s2) (List.range I) st hst
    (fun s2 _ hs2 => innerStep_agent_inGrid W H pic rng s2 hs2)
  obtain ⟨hx, hy⟩ := roomDecision_agent W H rX rY pir rng
    ((List.range I).foldl (fun s2 _ => innerStep W H pic rng s2) st)
  rw [hx, hy]
  exact hsteps

/-- C5 witness: the final agent position of a concrete call is inside the
concrete grid. -/
theorem C5_agent_bounds_witness :
    inGrid 3 3 (drunkAgent [[0, 0, 0], [0, 0, 0], [0, 0, 0]] 3 3 1 2 1 1 (mkRat 1 10)
      (mkRat 1 20) (mkRat 1 5) (mkRat 1 50) 1 1 rngFire).agentX
      (drunkAgent [[0, 0, 0], [0, 0, 0], [0, 0, 0]] 3 3 1 2 1 1 (mkRat 1 10)
      (mkRat 1 20) (mkRat 1 5) (mkRat 1 50) 1 1 rngFire).agentY :=
  (C5_agent_bounds [[0, 0, 0], [0, 0, 0], [0, 0, 0]] 3 3 1 2 1 1 (mkRat 1 10)
    (mkRat 1 20) (mkRat 1 5) (mkRat 1 50) 1 1 rngFire (by decide) (by decide)
    (by decide) (by decide) (by decide)).2.2

/-! ### Claim C6 -/

/-- C6: in every inner step whose candidate next position lies outside the
grid, the agent does not move, the new heading is drawn from the direction
stream through the bijection of direction indices onto the four cardinal
headings, and the adaptive direction change probability is neither rolled
against (the chance stream position is untouched) nor incremented nor
reset. -/
theorem C6_wall_bounce (W H : ℤ) (pic : ℚ) (rng : RNG) (s : DAState)
    (hout : ¬ inGrid W H (s.agentX + s.dx) (s.agentY + s.dy)) :
    (innerStep W H pic rng s).agentX = s.agentX ∧
    (innerStep W H pic rng s).agentY = s.agentY ∧
    (innerStep W H pic rng s).probChangeDirection = s.probChangeDirection ∧
    (innerStep W H pic rng s).ci = s.ci ∧
    (innerStep W H pic rng s).di = s.di + 1 ∧
    (innerStep W H pic rng s).dx = dirDX (rng.dir s.di) ∧
    (innerStep W H pic rng s).dy = dirDY (rng.dir s.di) ∧
    (∀ d : Fin 4, (dirDX d, dirDY d) ∈
      ([(-1, 0), (1, 0), (0, -1), (0, 1)] : List (ℤ × ℤ))) ∧
    (∀ q ∈ ([(-1, 0), (1, 0), (0, -1), (0, 1)] : List (ℤ × ℤ)),
      ∃ d : Fin 4, (dirDX d, dirDY d) = q) ∧
    Function.Injective (fun d : Fin 4 => (dirDX d, dirDY d)) := by
  rw [innerStep_bounce W H pic rng s hout]
  refine ⟨rfl, rfl, rfl, rfl, rfl, rfl, rfl, by decide, by decide, ?_⟩
  intro d1 d2 h
  have hd : (dirDX d1, dirDY d1) = (dirDX d2, dirDY d2) := h
  revert hd
  revert d1 d2
  decide

/-- C6 witness: a concrete bounce step, agent in the corner heading out of
the grid. -/
theorem C6_wall_bounce_witness :
    (innerStep 3 3 (mkRat 1 50) rngFire
        { map := [[0, 0, 0], [0, 0, 0], [0, 0, 0]], agentX := 2, agentY := 2, dx := 0,
          dy := 1, probGenerateRoom := mkRat 1 10, probChangeDirection := mkRat 1 5,
          ci := 0, di := 0 }).agentX = 2 ∧
    (innerStep 3 3 (mkRat 1 50) rngFire
        { map := [[0, 0, 0], [0, 0, 0], [0, 0, 0]], agentX := 2, agentY := 2, dx := 0,
          dy := 1, probGenerateRoom := mkRat 1 10, probChangeDirection := mkRat 1 5,
          ci := 0, di := 0 }).probChangeDirection = mkRat 1 5 := by
  have h := C6_wall_bounce 3 3 (mkRat 1 50) rngFire
    { map := [[0, 0, 0], [0, 0, 0], [0, 0, 0]], agentX := 2, agentY := 2, dx := 0,
      dy := 1, probGenerateRoom := mkRat 1 10, probChangeDirection := mkRat 1 5,
      ci := 0, di := 0 } (by decide)
  exact ⟨h.1, h.2.2.1⟩

/-! ### Claim C2 -/

/-- C2 counterexample: a drunkAgent call passing base probChangeDirection
9/10, in which exactly one direction change fires (the heading visibly
becomes the drawn direction), ends with probChangeDirection 1/5 = 0.2, the
source literal, not the passed base value 9/10. -/
theorem C2_counterexample :
    (drunkAgent empty3x3 3 3 1 1 1 1 (mkRat 0 1) (mkRat 0 1) (mkRat 9 10) (mkRat 0 1)
      1 1 rngFire).probChangeDirection = mkRat 2 10 ∧
    (drunkAgent empty3x3 3 3 1 1 1 1 (mkRat 0 1) (mkRat 0 1) (mkRat 9 10) (mkRat 0 1)
      1 1 rngFire).dx = -1 ∧
    ¬ ((mkRat 2 10 : ℚ) = mkRat 9 10) := by
  decide

/-- C2 amended: every drunkAgent call starts from the state built by
initState, whose heading is the fixed default (dx, dy) = (0, 1) and whose
adaptive probabilities are the passed base values; on a step whose move
succeeded, a fired direction change resets probChangeDirection to the
constant 1/5 (the source literal 0.2), otherwise the probability grows by
the configured increment; a fired room decision resets probGenerateRoom to
the constant 1/10 (the source literal 0.1), otherwise it grows by its
configured increment. -/
theorem C2_amended_adaptive_probabilities (m : Map) (W H : ℤ) (J I : ℕ)
    (rX rY : ℤ) (pg pir pc pic : ℚ) (ax ay : ℤ) (rng : RNG) :
    (drunkAgent m W H J I rX rY pg pir pc pic ax ay rng =
      (List.range J).foldl
        (fun st _ => walkOnce W H rX rY I pir pic rng st)
        (initState m pg pc ax ay)) ∧
    ((initState m pg pc ax ay).dx = 0 ∧ (initState m pg pc ax ay).dy = 1 ∧
     (initState m pg pc ax ay).probGenerateRoom = pg ∧
     (initState m pg pc ax ay).probChangeDirection = pc) ∧
    (∀ s : DAState, inGrid W H (s.agentX + s.dx) (s.agentY + s.dy) →
      rng.chance s.ci < s.probChangeDirection →
      (innerStep W H pic rng s).probChangeDirection = mkRat 2 10) ∧
    (∀ s : DAState, inGrid W H (s.agentX + s.dx) (s.agentY + s.dy) →
      ¬ (rng.chance s.ci < s.probChangeDirection) →
      (innerStep W H pic rng s).probChangeDirection = s.probChangeDirection + pic) ∧
    (∀ s : DAState, rng.chance s.ci < s.probGenerateRoom →
      (roomDecision W H rX rY pir rng s).probGenerateRoom = mkRat 1 10) ∧
    (∀ s : DAState, ¬ (rng.chance s.ci < s.probGenerateRoom) →
      (roomDecision W H rX rY pir rng s).probGenerateRoom = s.probGenerateRoom + pir) := by
  refine ⟨rfl, ⟨rfl, rfl, rfl, rfl⟩, ?_, ?_, ?_, ?_⟩
  · intro s hin hfire
    rw [innerStep_move_fire W H pic rng s hin hfire]
  · intro s hin hnof
    rw [innerStep_move_nofire W H pic rng s hin hnof]
    exact ratAdd_eq s.probChangeDirection pic
  · intro s hfire
    rw [roomDecision_fire W H rX rY pir rng s hfire]
  · intro s hnof
    rw [roomDecision_nofire W H rX rY pir rng s hnof]
    exact ratAdd_eq s.probGenerateRoom pir

/-- C2 witness: the amended reset and increment rules at concrete states. -/
theorem C2_amended_adaptive_probabilities_witness :
    (innerStep 3 3 (mkRat 3 100) rngFire
        { map := empty3x3, agentX := 1, agentY := 1, dx := 0, dy := 1,
          probGenerateRoom := mkRat 1 10, probChangeDirection := mkRat 9 10,
          ci := 0, di := 0 }).probChangeDirection = mkRat 2 10 ∧
    (roomDecision 3 3 1 1 (mkRat 5 100) rngFire
        { map := empty3x3, agentX := 1, agentY := 1, dx := 0, dy := 1,
          probGenerateRoom := mkRat 1 2, probChangeDirection := mkRat 1 5,
          ci := 0, di := 0 }).probGenerateRoom = mkRat 1 10 := by
  have h := C2_amended_adaptive_probabilities empty3x3 3 3 1 1 1 1 (mkRat 1 10)
    (mkRat 5 100) (mkRat 9 10) (mkRat 3 100) 1 1 rngFire
  exact ⟨h.2.2.1 _ (by decide) (by decide), h.2.2.2.2.1 _ (by decide)⟩

/-! ### Claim C3 -/

theorem stampRoom_eq_foldl (W H hX hY ax ay : ℤ) (m : Map) :
    stampRoom W H hX hY ax ay m =
      (roomCells W H hX hY ax ay).foldl (fun acc p => setCell acc p.1 p.2 1) m := by
  unfold stampRoom roomCells
  rw [List.foldl_map, ← foldl_guard_filter, foldl_flatMap]
  apply List.foldl_ext
  intro acc dxRoom _
  rw [List.foldl_map]
  apply List.foldl_ext
  intro acc2 dyRoom _
  dsimp only
  by_cases h : 0 ≤ ax + dxRoom ∧ ax + dxRoom < H ∧ 0 ≤ ay + dyRoom ∧ ay + dyRoom < W
  · rw [if_pos h, if_pos (by simpa using h)]
  · rw [if_neg h, if_neg (by simpa using h)]

theorem mem_roomCells (W H hX hY ax ay : ℤ) (a b : ℕ) :
    (a, b) ∈ roomCells W H hX hY ax ay ↔
      (ax - hX ≤ (a : ℤ) ∧ (a : ℤ) ≤ ax + hX ∧ (a : ℤ) < H ∧
       ay - hY ≤ (b : ℤ) ∧ (b : ℤ) ≤ ay + hY ∧ (b : ℤ) < W) := by
  unfold roomCells
  simp only [List.mem_map, List.mem_filter, List.mem_flatMap, List.mem_map,
    mem_intRange, decide_eq_true_eq]
  constructor
  · rintro ⟨q, ⟨⟨dxRoom, hdx, dyRoom, hdy, rfl⟩, hg⟩, heq⟩
    have h1 : (ax + dxRoom).toNat = a := congrArg Prod.fst heq
    have h2 : (ay + dyRoom).toNat = b := congrArg Prod.snd heq
    simp only at h1 h2 hg
    omega
  · intro h
    refine ⟨((a : ℤ), (b : ℤ)), ⟨⟨(a : ℤ) - ax, by omega, (b : ℤ) - ay, by omega, by
      simp only [Prod.mk.injEq]
      constructor <;> ring⟩, by
        simp only
        omega⟩, by simp⟩

theorem nodup_roomCells (W H hX hY ax ay : ℤ) :
    (roomCells W H hX hY ax ay).Nodup := by
  unfold roomCells
  apply List.Nodup.map_on
  · intro q1 h1 q2 h2 heq
    rw [List.mem_filter, decide_eq_true_eq] at h1 h2
    have e1 : q1.1.toNat = q2.1.toNat := congrArg Prod.fst heq
    have e2 : q1.2.toNat = q2.2.toNat := congrArg Prod.snd heq
    simp only at e1 e2
    have := h1.2
    have := h2.2
    refine Prod.ext ?_ ?_ <;> omega
  · apply List.Nodup.filter
    apply nodup_flatMap_disjoint
    · exact nodup_intRange _ _
    · intro dxRoom _
      apply List.Nodup.map
      · intro y1 y2 h
        simpa using congrArg Prod.snd h
      · exact nodup_intRange _ _
    · intro x _ y _ hxy q hqx hqy
      obtain ⟨j1, _, rfl⟩ := List.mem_map.mp hqx
      obtain ⟨j2, _, h2⟩ := List.mem_map.mp hqy
      have : ay + j2 = ay + j1 ∧ ax + y = ax + x := by
        constructor
        · simpa using congrArg Prod.snd h2
        · simpa using congrArg Prod.fst h2
      exact hxy (by omega)

theorem stampRoom_spec (W H hX hY ax ay : ℤ) (m : Map)
    (hd : dimsOk H.toNat W.toNat m) :
    dimsOk H.toNat W.toNat (stampRoom W H hX hY ax ay m) ∧
    ∀ a b : ℕ, getCell (stampRoom W H hX hY ax ay m) a b =
      if (a, b) ∈ roomCells W H hX hY ax ay then 1 else getCell m a b := by
  rw [stampRoom_eq_foldl]
  have h := foldl_setCell_overlay H.toNat W.toNat m (fun _ => 1) (fun _ _ => 1)
    (fun acc p _ _ _ _ _ => rfl)
    (roomCells W H hX hY ax ay) [] m (nodup_roomCells W H hX hY ax ay)
    (fun p hp => by
      obtain ⟨p1, p2⟩ := p
      have hm := (mem_roomCells W H hX hY ax ay p1 p2).mp hp
      constructor <;> [skip; skip] <;> simp only <;> omega)
    (fun p _ hmem => List.not_mem_nil p hmem) hd
    (fun a b => by rw [if_neg (List.not_mem_nil (a, b))])
  refine ⟨h.1, ?_⟩
  intro a b
  rw [h.2 a b]
  refine if_congr ?_ rfl rfl
  simp only [List.not_mem_nil, false_or]

/-- C3 counterexample: with roomSizeX = 5 and roomSizeY = 3 and the agent
resting at (3, 3) of an empty 7 by 7 grid, the stamp marks cell (5, 3),
which lies outside the band of 3 rows around the agent row that the claimed
height roomSizeY allows, and leaves cell (3, 5) empty although it lies in
the band of 5 columns around the agent column that the claimed width
roomSizeX covers: the two room size parameters act on the opposite axes of
the claim. -/
theorem C3_counterexample :
    getCell (drunkAgent empty7x7 7 7 1 0 5 3 (mkRat 1 1) (mkRat 0 1) (mkRat 1 5)
      (mkRat 0 1) 3 3 rngFire).map 5 3 = 1 ∧
    getCell (drunkAgent empty7x7 7 7 1 0 5 3 (mkRat 1 1) (mkRat 0 1) (mkRat 1 5)
      (mkRat 0 1) 3 3 rngFire).map 3 5 = 0 ∧
    getCell empty7x7 5 3 = 0 ∧
    ¬ ((3 : ℤ) - 3 / 2 ≤ (5 : ℤ) ∧ (5 : ℤ) ≤ 3 + 3 / 2) ∧
    ((3 : ℤ) - 5 / 2 ≤ (5 : ℤ) ∧ (5 : ℤ) ≤ 3 + 5 / 2) := by
  decide

/-- C3 amended: whenever the room decision fires, the cells marked by the
stamp are exactly the cells of the rectangle spanning rows
[agentX - roomSizeX/2, agentX + roomSizeX/2] and columns
[agentY - roomSizeY/2, agentY + roomSizeY/2] (truncating integer division,
so roomSizeX is the extent along the row axis and roomSizeY the extent
along the column axis) that lie inside [0,H) x [0,W); cells of the
rectangle beyond an edge are silently skipped, no cell outside the grid is
written, and the grid dimensions are preserved. -/
theorem C3_amended_room_stamp (W H rX rY : ℤ) (pir : ℚ) (rng : RNG) (s : DAState)
    (hd : dimsOk H.toNat W.toNat s.map)
    (hfire : rng.chance s.ci < s.probGenerateRoom) :
    dimsOk H.toNat W.toNat (roomDecision W H rX rY pir rng s).map ∧
    ∀ a b : ℕ,
      getCell (roomDecision W H rX rY pir rng s).map a b = 1 ↔
        (getCell s.map a b = 1 ∨
          (s.agentX - rX.tdiv 2 ≤ (a : ℤ) ∧ (a : ℤ) ≤ s.agentX + rX.tdiv 2 ∧ (a : ℤ) < H ∧
           s.agentY - rY.tdiv 2 ≤ (b : ℤ) ∧ (b : ℤ) ≤ s.agentY + rY.tdiv 2 ∧ (b : ℤ) < W)) := by
  rw [roomDecision_fire W H rX rY pir rng s hfire]
  obtain ⟨hds, hcells⟩ :=
    stampRoom_spec W H (rX.tdiv 2) (rY.tdiv 2) s.agentX s.agentY s.map hd
  refine ⟨hds, ?_⟩
  intro a b
  show getCell (stampRoom W H (rX.tdiv 2) (rY.tdiv 2) s.agentX s.agentY s.map) a b = 1 ↔ _
  rw [hcells a b]
  by_cases hm : (a, b) ∈ roomCells W H (rX.tdiv 2) (rY.tdiv 2) s.agentX s.agentY
  · rw [if_pos hm]
    constructor
    · intro _
      exact Or.inr ((mem_roomCells W H (rX.tdiv 2) (rY.tdiv 2) s.agentX s.agentY a b).mp hm)
    · intro _
      rfl
  · rw [if_neg hm]
    constructor
    · exact Or.inl
    · rintro (h | hrect)
      · exact h
      · exact absurd
          ((mem_roomCells W H (rX.tdiv 2) (rY.tdiv 2) s.agentX s.agentY a b).mpr hrect) hm

/-- C3 witness: the amended stamp characterization at a concrete firing
state marks the concrete cell two rows below the agent. -/
theorem C3_amended_room_stamp_witness :
    getCell (roomDecision 7 7 5 3 (mkRat 0 1) rngFire
      { map := empty7x7, agentX := 3, agentY := 3, dx := 0, dy := 1,
        probGenerateRoom := mkRat 1 1, probChangeDirection := mkRat 1 5,
        ci := 0, di := 0 }).map 5 3 = 1 := by
  have h := C3_amended_room_stamp 7 7 5 3 (mkRat 0 1) rngFire
    { map := empty7x7, agentX := 3, agentY := 3, dx := 0, dy := 1,
      probGenerateRoom := mkRat 1 1, probChangeDirection := mkRat 1 5,
      ci := 0, di := 0 } (by decide) (by decide)
  exact (h.2 5 3).mpr (Or.inr (by decide))

/-! ### Claim C10 -/

theorem dimsOk_markCurrent (W H : ℤ) (s : DAState) (hd : dimsOk H.toNat W.toNat s.map) :
    dimsOk H.toNat W.toNat (markCurrent W H s) := by
  unfold markCurrent
  split
  · exact dimsOk_setCell _ _ _ _ _ _ hd
  · exact hd

theorem dimsOk_innerStep (W H : ℤ) (pic : ℚ) (rng : RNG) (s : DAState)
    (hd : dimsOk H.toNat W.toNat s.map) :
    dimsOk H.toNat W.toNat (innerStep W H pic rng s).map := by
  by_cases hin : inGrid W H (s.agentX + s.dx) (s.agentY + s.dy)
  · by_cases hf : rng.chance s.ci < s.probChangeDirection
    · rw [innerStep_move_fire W H pic rng s hin hf]
      exact dimsOk_markCurrent W H s hd
    · rw [innerStep_move_nofire W H pic rng s hin hf]
      exact dimsOk_markCurrent W H s hd
  · rw [innerStep_bounce W H pic rng s hin]
    exact dimsOk_markCurrent W H s hd

theorem dimsOk_stampRoom (W H hX hY ax ay : ℤ) (m : Map)
    (hd : dimsOk H.toNat W.toNat m) :
    dimsOk H.toNat W.toNat (stampRoom W H hX hY ax ay m) := by
  unfold stampRoom
  refine foldl_invariant (fun acc : Map => dimsOk H.toNat W.toNat acc) _ _ _ hd ?_
  intro acc dxRoom hacc
  refine foldl_invariant (fun acc2 : Map => dimsOk H.toNat W.toNat acc2) _ _ _ hacc ?_
  intro acc2 dyRoom hacc2
  dsimp only
  split
  · exact dimsOk_setCell _ _ _ _ _ _ hacc2
  · exact hacc2

theorem dimsOk_roomDecision (W H rX rY : ℤ) (pir : ℚ) (rng : RNG) (s : DAState)
    (hd : dimsOk H.toNat W.toNat s.map) :
    dimsOk H.toNat W.toNat (roomDecision W H rX rY pir rng s).map := by
  by_cases hf : rng.chance s.ci < s.probGenerateRoom
  · rw [roomDecision_fire W H rX rY pir rng s hf]
    exact dimsOk_stampRoom _ _ _ _ _ _ _ hd
  · rw [roomDecision_nofire W H rX rY pir rng s hf]
    exact hd

theorem dimsOk_walkOnce (W H rX rY : ℤ) (I : ℕ) (pir pic : ℚ) (rng : RNG) (s : DAState)
    (hd : dimsOk H.toNat W.toNat s.map) :
    dimsOk H.toNat W.toNat (walkOnce W H rX rY I pir pic rng s).map := by
  unfold walkOnce
  apply dimsOk_roomDecision
  refine foldl_invariant (fun st : DAState => dimsOk H.toNat W.toNat st.map) _ _ _ hd ?_
  intro st k hst
  exact dimsOk_innerStep W H pic rng st hst

theorem dimsOk_drunkAgent (m : Map) (W H : ℤ) (J I : ℕ) (rX rY : ℤ)
    (pg pir pc pic : ℚ) (ax ay : ℤ) (rng : RNG) (hd : dimsOk H.toNat W.toNat m) :
    dimsOk H.toNat W.toNat (drunkAgent m W H J I rX rY pg pir pc pic ax ay rng).map := by
  unfold drunkAgent
  refine foldl_invariant (fun st : DAState => dimsOk H.toNat W.toNat st.map) _ _ _ hd ?_
  intro st k hst
  exact dimsOk_walkOnce W H rX rY I pir pic rng st hst

theorem innerStep_map_outside (W H : ℤ) (pic : ℚ) (rng : RNG) (s : DAState)
    (hout : ¬ inGrid W H s.agentX s.agentY) :
    (innerStep W H pic rng s).map = s.map := by
  have hmc : markCurrent W H s = s.map := by
    unfold markCurrent
    rw [if_neg hout]
  by_cases hin : inGrid W H (s.agentX + s.dx) (s.agentY + s.dy)
  · by_cases hf : rng.chance s.ci < s.probChangeDirection
    · rw [innerStep_move_fire W H pic rng s hin hf]
      exact hmc
    · rw [innerStep_move_nofire W H pic rng s hin hf]
      exact hmc
  · rw [innerStep_bounce W H pic rng s hin]
    exact hmc

/-- C10 counterexample: an agent that starts outside the grid and never
reenters it (the single step bounces and the final position is still the
starting one) nevertheless changes the grid: the fired room decision,
centered on the outside position, clips into the grid and marks cell
(0, 1). -/
theorem C10_counterexample :
    getCell (drunkAgent empty3x3 3 3 1 1 3 3 (mkRat 9 10) (mkRat 0 1) (mkRat 1 5)
      (mkRat 0 1) (-1) 1 rngStuck).map 0 1 = 1 ∧
    getCell empty3x3 0 1 = 0 ∧
    (drunkAgent empty3x3 3 3 1 1 3 3 (mkRat 9 10) (mkRat 0 1) (mkRat 1 5)
      (mkRat 0 1) (-1) 1 rngStuck).agentX = -1 ∧
    ¬ inGrid 3 3 (-1 : ℤ) 1 := by
  decide

/-- C10 amended: drunkAgent is total for every initial agent position,
including positions outside the grid; every write is bounds guarded, so the
grid dimensions are preserved and cells outside the grid rectangle are
never touched, and the step marking writes nothing while the agent stands
outside the grid (a fired room decision may still clip into the grid). -/
theorem C10_amended_bounds_guarded (m : Map) (W H : ℤ) (J I : ℕ) (rX rY : ℤ)
    (pg pir pc pic : ℚ) (ax ay : ℤ) (rng : RNG)
    (hd : dimsOk H.toNat W.toNat m) :
    dimsOk H.toNat W.toNat (drunkAgent m W H J I rX rY pg pir pc pic ax ay rng).map ∧
    (∀ a b : ℕ, ¬ (a < H.toNat ∧ b < W.toNat) →
      getCell (drunkAgent m W H J I rX rY pg pir pc pic ax ay rng).map a b =
        getCell m a b) ∧
    (∀ s : DAState, ¬ inGrid W H s.agentX s.agentY →
      (innerStep W H pic rng s).map = s.map) := by
  have hdr := dimsOk_drunkAgent m W H J I rX rY pg pir pc pic ax ay rng hd
  refine ⟨hdr, ?_, fun s hs => innerStep_map_outside W H pic rng s hs⟩
  intro a b hab
  rw [getCell_out_of_range _ _ _ hdr a b hab, getCell_out_of_range _ _ _ hd a b hab]

/-- C10 witness: a cell outside the concrete grid rectangle reads the same
before and after a concrete call that starts outside the grid. -/
theorem C10_amended_bounds_guarded_witness :
    getCell (drunkAgent empty3x3 3 3 1 1 3 3 (mkRat 9 10) (mkRat 0 1) (mkRat 1 5)
      (mkRat 0 1) (-1) 1 rngStuck).map 7 0 = getCell empty3x3 7 0 :=
  (C10_amended_bounds_guarded empty3x3 3 3 1 1 3 3 (mkRat 9 10) (mkRat 0 1)
    (mkRat 1 5) (mkRat 0 1) (-1) 1 rngStuck (by decide)).2.1 7 0 (by decide)

/-! ### Claim C8 -/

theorem countP_set_le (l : List ℤ) (j : ℕ) (v : ℤ) (p : ℤ → Bool) :
    (l.set j v).countP p ≤ l.countP p + 1 := by
  induction l generalizing j with
  | nil => simp
  | cons x xs ih =>
    cases j with
    | zero =>
      rw [List.set_cons_zero, List.countP_cons, List.countP_cons]
      by_cases hv : p v <;> by_cases hx : p x <;> simp [hv, hx] <;> omega
    | succ k =>
      rw [List.set_cons_succ, List.countP_cons, List.countP_cons]
      have := ih k
      omega

theorem countOccupied_cons (r : List ℤ) (rs : Map) :
    countOccupied (r :: rs) = r.countP (fun v => v == 1) + countOccupied rs := by
  simp [countOccupied]

theorem countOccupied_setCell_le (m : Map) (i j : ℕ) (v : ℤ) :
    countOccupied (setCell m i j v) ≤ countOccupied m + 1 := by
  induction m generalizing i with
  | nil => simp [setCell, countOccupied]
  | cons r rs ih =>
    cases i with
    | zero =>
      show countOccupied ((r.set j v) :: rs) ≤ _
      rw [countOccupied_cons, countOccupied_cons]
      have := countP_set_le r j v (fun w => w == 1)
      omega
    | succ k =>
      show countOccupied (r :: setCell rs k j v) ≤ _
      rw [countOccupied_cons, countOccupied_cons]
      have := ih k
      omega

theorem countOccupied_foldl_le {α : Type} (g : Map → α → Map) (k : ℕ) (l : List α)
    (hg : ∀ acc x, countOccupied (g acc x) ≤ countOccupied acc + k) :
    ∀ m : Map, countOccupied (l.foldl g m) ≤ countOccupied m + l.length * k := by
  induction l with
  | nil =>
    intro m
    simp
  | cons x xs ih =>
    intro m
    rw [List.foldl_cons, List.length_cons, Nat.succ_mul]
    have h1 := ih (g m x)
    have h2 := hg m x
    omega

theorem countOccupied_foldl_state_le {α : Type} (g : DAState → α → DAState) (k : ℕ)
    (l : List α)
    (hg : ∀ st x, countOccupied (g st x).map ≤ countOccupied st.map + k) :
    ∀ s : DAState, countOccupied (l.foldl g s).map ≤ countOccupied s.map + l.length * k := by
  induction l with
  | nil =>
    intro s
    simp
  | cons x xs ih =>
    intro s
    rw [List.foldl_cons, List.length_cons, Nat.succ_mul]
    have h1 := ih (g s x)
    have h2 := hg s x
    omega

theorem countOccupied_stampRoom_le (W H hX hY ax ay : ℤ) (m : Map) :
    countOccupied (stampRoom W H hX hY ax ay m) ≤
      countOccupied m + (2 * hX + 1).toNat * (2 * hY + 1).toNat := by
  unfold stampRoom
  have hinner : ∀ (acc : Map) (dxRoom : ℤ),
      countOccupied ((intRange (-hY) hY).foldl (fun acc2 dyRoom =>
        if 0 ≤ ax + dxRoom ∧ ax + dxRoom < H ∧ 0 ≤ ay + dyRoom ∧ ay + dyRoom < W then
          setCell acc2 (ax + dxRoom).toNat (ay + dyRoom).toNat 1
        else acc2) acc) ≤ countOccupied acc + (2 * hY + 1).toNat := by
    intro acc dxRoom
    have h := countOccupied_foldl_le (fun acc2 dyRoom =>
        if 0 ≤ ax + dxRoom ∧ ax + dxRoom < H ∧ 0 ≤ ay + dyRoom ∧ ay + dyRoom < W then
          setCell acc2 (ax + dxRoom).toNat (ay + dyRoom).toNat 1
        else acc2) 1 (intRange (-hY) hY) (fun acc2 dyRoom => by
          dsimp only
          split
          · exact countOccupied_setCell_le _ _ _ _
          · omega) acc
    rw [length_intRange] at h
    have he : hY + 1 - -hY = 2 * hY + 1 := by ring
    rw [he, Nat.mul_one] at h
    exact h
  have h := countOccupied_foldl_le _ ((2 * hY + 1).toNat) (intRange (-hX) hX)
    hinner m
  rw [length_intRange] at h
  have he : hX + 1 - -hX = 2 * hX + 1 := by ring
  rw [he] at h
  exact h

theorem countOccupied_innerStep_le (W H : ℤ) (pic : ℚ) (rng : RNG) (s : DAState) :
    countOccupied (innerStep W H pic rng s).map ≤ countOccupied s.map + 1 := by
  have hmc : countOccupied (markCurrent W H s) ≤ countOccupied s.map + 1 := by
    unfold markCurrent
    split
    · exact countOccupied_setCell_le _ _ _ _
    · omega
  by_cases hin : inGrid W H (s.agentX + s.dx) (s.agentY + s.dy)
  · by_cases hf : rng.chance s.ci < s.probChangeDirection
    · rw [innerStep_move_fire W H pic rng s hin hf]
      exact hmc
    · rw [innerStep_move_nofire W H pic rng s hin hf]
      exact hmc
  · rw [innerStep_bounce W H pic rng s hin]
    exact hmc

theorem countOccupied_roomDecision_le (W H rX rY : ℤ) (pir : ℚ) (rng : RNG)
    (s : DAState) :
    countOccupied (roomDecision W H rX rY pir rng s).map ≤
      countOccupied s.map + (2 * rX.tdiv 2 + 1).toNat * (2 * rY.tdiv 2 + 1).toNat := by
  by_cases hf : rng.chance s.ci < s.probGenerateRoom
  · rw [roomDecision_fire W H rX rY pir rng s hf]
    exact countOccupied_stampRoom_le _ _ _ _ _ _ _
  · rw [roomDecision_nofire W H rX rY pir rng s hf]
    exact Nat.le_add_right _ _

theorem countOccupied_walkOnce_le (W H rX rY : ℤ) (I : ℕ) (pir pic : ℚ) (rng : RNG)
    (s : DAState) :
    countOccupied (walkOnce W H rX rY I pir pic rng s).map ≤
      countOccupied s.map +
        (I + (2 * rX.tdiv 2 + 1).toNat * (2 * rY.tdiv 2 + 1).toNat) := by
  unfold walkOnce
  have hsteps := countOccupied_foldl_state_le (fun st _ => innerStep W H pic rng st) 1
    (List.range I) (fun st x => countOccupied_innerStep_le W H pic rng st) s
  rw [List.length_range, Nat.mul_one] at hsteps
  have hroom := countOccupied_roomDecision_le W H rX rY pir rng
    ((List.range I).foldl (fun st _ => innerStep W H pic rng st) s)
  omega

theorem countOccupied_drunkAgent_le (m : Map) (W H : ℤ) (J I : ℕ) (rX rY : ℤ)
    (pg pir pc pic : ℚ) (ax ay : ℤ) (rng : RNG) :
    countOccupied (drunkAgent m W H J I rX rY pg pir pc pic ax ay rng).map ≤
      countOccupied m +
        J * (I + (2 * rX.tdiv 2 + 1).toNat * (2 * rY.tdiv 2 + 1).toNat) := by
  unfold drunkAgent
  have h := countOccupied_foldl_state_le
    (fun st _ => walkOnce W H rX rY I pir pic rng st)
    (I + (2 * rX.tdiv 2 + 1).toNat * (2 * rY.tdiv 2 + 1).toNat) (List.range J)
    (fun st x => countOccupied_walkOnce_le W H rX rY I pir pic rng st)
    (initState m pg pc ax ay)
  rw [List.length_range] at h
  exact h

theorem innerStep_marks (W H : ℤ) (pic : ℚ) (rng : RNG) (s : DAState)
    (hd : dimsOk H.toNat W.toNat s.map) (hpos : inGrid W H s.agentX s.agentY) :
    getCell (innerStep W H pic rng s).map s.agentX.toNat s.agentY.toNat = 1 := by
  have hmark : getCell (markCurrent W H s) s.agentX.toNat s.agentY.toNat = 1 := by
    unfold markCurrent
    rw [if_pos hpos]
    apply getCell_setCell_self
    · rw [hd.1]
      omega
    · rw [rowlen_of_dims H.toNat W.toNat s.map hd s.agentX.toNat (by omega)]
      omega
  by_cases hin : inGrid W H (s.agentX + s.dx) (s.agentY + s.dy)
  · by_cases hf : rng.chance s.ci < s.probChangeDirection
    · rw [innerStep_move_fire W H pic rng s hin hf]
      exact hmark
    · rw [innerStep_move_nofire W H pic rng s hin hf]
      exact hmark
  · rw [innerStep_bounce W H pic rng s hin]
    exact hmark

theorem drunkAgent_marks_start (m : Map) (W H : ℤ) (J I : ℕ) (rX rY : ℤ)
    (pg pir pc pic : ℚ) (ax ay : ℤ) (rng : RNG)
    (hJ : 1 ≤ J) (hI : 1 ≤ I) (hd : dimsOk H.toNat W.toNat m)
    (hpos : inGrid W H ax ay) :
    getCell (drunkAgent m W H J I rX rY pg pir pc pic ax ay rng).map
      ax.toNat ay.toNat = 1 := by
  obtain ⟨J1, rfl⟩ : ∃ J1, J = J1 + 1 := ⟨J - 1, by omega⟩
  obtain ⟨I1, rfl⟩ : ∃ I1, I = I1 + 1 := ⟨I - 1, by omega⟩
  unfold drunkAgent
  rw [List.range_succ_eq_map, List.foldl_cons]
  have hfirst : getCell (walkOnce W H rX rY (I1 + 1) pir pic rng
      (initState m pg pc ax ay)).map ax.toNat ay.toNat = 1 := by
    unfold walkOnce
    rw [List.range_succ_eq_map, List.foldl_cons]
    have h1 : getCell (innerStep W H pic rng (initState m pg pc ax ay)).map
        ax.toNat ay.toNat = 1 :=
      innerStep_marks W H pic rng (initState m pg pc ax ay) hd hpos
    have h2 := foldl_invariant
      (fun st : DAState => getCell st.map ax.toNat ay.toNat = 1)
      (fun st _ => innerStep W H pic rng st) ((List.range I1).map Nat.succ)
      (innerStep W H pic rng (initState m pg pc ax ay)) h1
      (fun st x hst => mapLE_innerStep W H pic rng st ax.toNat ay.toNat hst)
    exact mapLE_roomDecision W H rX rY pir rng _ ax.toNat ay.toNat h2
  exact foldl_invariant
    (fun st : DAState => getCell st.map ax.toNat ay.toNat = 1)
    (fun st _ => walkOnce W H rX rY (I1 + 1) pir pic rng st)
    ((List.range J1).map Nat.succ) _ hfirst
    (fun st x hst => mapLE_walkOnce W H rX rY (I1 + 1) pir pic rng st ax.toNat ay.toNat hst)

theorem one_le_countOccupied (m : Map) (i j : ℕ) (h : getCell m i j = 1) :
    1 ≤ countOccupied m := by
  induction m generalizing i with
  | nil =>
    exact absurd h (by simp [getCell])
  | cons r rs ih =>
    cases i with
    | zero =>
      rw [countOccupied_cons]
      have hj : j < r.length := by
        by_contra hj
        rw [show getCell (r :: rs) 0 j = r.getD j 0 from rfl,
          List.getD_eq_default _ _ (Nat.le_of_not_lt hj)] at h
        exact absurd h (by decide)
      have hmem : r.getD j 0 ∈ r := getD_mem r j 0 hj
      have hpos : 0 < r.countP (fun v => v == 1) := by
        rw [List.countP_pos_iff]
        refine ⟨r.getD j 0, hmem, ?_⟩
        have : r.getD j 0 = 1 := h
        rw [this]
        decide
      omega
    | succ k =>
      rw [countOccupied_cons]
      have := ih k h
      omega

set_option maxRecDepth 100000 in
/-- C8 counterexample: with roomSizeX = roomSizeY = 0 and a draw stream
steering the agent along a self avoiding snake, one drunkAgent call on the
scenario grid (10 by 20 all empty, agent at (5, 10), J = 5, I = 10, the
default probability parameters) occupies 51 cells: the 50 step marks are
all distinct and the last room is stamped on the yet unmarked cell the
agent moved to after its last step, exceeding the claimed bound
J*I + J*roomSizeX*roomSizeY = 50. -/
theorem C8_counterexample :
    countOccupied (drunkAgent empty10x20 20 10 5 10 0 0 (mkRat 1 10) (mkRat 5 100)
      (mkRat 2 10) (mkRat 3 100) 5 10 rngSnake).map = 51 ∧
    ¬ ((51 : ℕ) ≤ 5 * 10 + 5 * (0 * 0)) := by
  constructor
  · decide
  · decide

/-- C8 amended: for the scenario grid (10 by 20 all empty, agent at (5, 10),
J = 5, I = 10) and any room size parameters, probability parameters and
draw streams, the occupied cell count after one drunkAgent call is strictly
positive and at most J*I + J*extX*extY, where extX = 2*(roomSizeX/2)+1 and
extY = 2*(roomSizeY/2)+1 are the actual extents of a stamped room (equal to
roomSizeX and roomSizeY for odd positive sizes). -/
theorem C8_amended_end_to_end (rX rY : ℤ) (pg pir pc pic : ℚ) (rng : RNG) :
    0 < countOccupied (drunkAgent empty10x20 20 10 5 10 rX rY pg pir pc pic
      5 10 rng).map ∧
    countOccupied (drunkAgent empty10x20 20 10 5 10 rX rY pg pir pc pic 5 10 rng).map ≤
      5 * 10 + 5 * ((2 * rX.tdiv 2 + 1).toNat * (2 * rY.tdiv 2 + 1).toNat) := by
  constructor
  · have h := drunkAgent_marks_start empty10x20 20 10 5 10 rX rY pg pir pc pic 5 10 rng
      (by decide) (by decide) (by decide) (by decide)
    exact one_le_countOccupied _ _ _ h
  · have h := countOccupied_drunkAgent_le empty10x20 20 10 5 10 rX rY pg pir pc pic
      5 10 rng
    have h0 : countOccupied empty10x20 = 0 := by decide
    rw [h0, Nat.zero_add] at h
    calc countOccupied (drunkAgent empty10x20 20 10 5 10 rX rY pg pir pc pic
        5 10 rng).map
        ≤ 5 * (10 + (2 * rX.tdiv 2 + 1).toNat * (2 * rY.tdiv 2 + 1).toNat) := h
      _ = 5 * 10 + 5 * ((2 * rX.tdiv 2 + 1).toNat * (2 * rY.tdiv 2 + 1).toNat) := by ring

end RuleBasedPCG
